import Mathlib

/-!
Decoding a variable-length coded bit sequence: `unravel.c`.

A shallow embedding of `unravel` (src/dipum/unravel.c, lines 8-28) and the
properties of it that the specification states.

Modelling conventions.
* `hx` (the `uint16_T` code words) is a `List Nat`; `link` (the transition
  table, `double` entries holding integers) is a `List Int`; `x` (the output
  buffer the caller allocated) is a `List Int`.
* `xsz` is the requested output length, a nonnegative integer held in a
  `double`; it is a `Nat` here and the arithmetic on it (`xsz - k`,
  `xsz - 1`) is done in `Int`, as the source does it in `double`.
* `hxsz` is the `int` word budget, an `Int`.
* The `int` registers `i`, `j`, `k` are naturals. The register `n` receives
  `link[n]` or `link[n] - 1`, a `double`, at lines 16-17: `toInt` is that
  conversion, defined on the range of a 32-bit `int` only. When the value does
  not fit, C gives `n` no defined value; lines 18-20 do not use `n`, so the
  budget test still runs, and the run ends with `Status.fault` when control
  would return to the loop with that `n`.
* C gives no meaning to an access outside `link`, `hx` or `x`. The embedding is
  total: such an access halts the run with `Status.fault`, carrying the access.
* `mexErrMsgIdAndTxt("DIPUM:TooFewBits", ...)` halts the run with
  `Status.outOfBits`.
* Every completed memory access is appended to `State.accesses`, a ghost log
  that no control decision reads.
-/

namespace Unravel

/-- One memory access of `unravel`, or its conversion of a table entry. -/
inductive Event where
  /-- a read of `*(link + n)` -/
  | readLink (n : Nat)
  /-- a read of bit `i` of `*(hx + j)` -/
  | readBit (j i : Nat)
  /-- the store `*(x + k) = v` -/
  | store (k : Nat) (v : Int)
  /-- the conversion of the `double` value `v` to the `int` register `n` -/
  | convert (v : Int)
  deriving DecidableEq, Repr

/-- The local variables of `unravel` (line 11), the output buffer, and the log
of the accesses completed so far. -/
structure State where
  /-- bit index inside the current word, 15 down to 0 -/
  i : Nat
  /-- word index into `hx` -/
  j : Nat
  /-- number of output values produced -/
  k : Nat
  /-- current node of the transition table -/
  n : Nat
  /-- output buffer -/
  x : List Int
  /-- ghost log of completed accesses, oldest first -/
  accesses : List Event
  deriving DecidableEq, Repr

/-- How a run ends. -/
inductive Status where
  /-- the function returned -/
  | ok
  /-- the call `mexErrMsgIdAndTxt("DIPUM:TooFewBits", ...)` of line 20 -/
  | outOfBits
  /-- the access `e` fell outside its array, or the conversion `e` outside
  the range of `int` -/
  | fault (e : Event)
  deriving DecidableEq, Repr

/-- Result of one execution of the loop body. -/
inductive Step where
  /-- control returns to the loop test -/
  | next (s : State)
  /-- the run ends inside the body -/
  | halt (r : Status) (s : State)
  deriving DecidableEq, Repr

/-- Line 11: `int i = 15, j = 0, k = 0, n = 0;` with the caller's buffer `x`. -/
def init (x : List Int) : State :=
  { i := 15, j := 0, k := 0, n := 0, x := x, accesses := [] }

/-- Line 18: `if (i) i--; else {j++; i = 15;}`. -/
def advance (s : State) : State :=
  if s.i ≠ 0 then { s with i := s.i - 1 } else { s with j := s.j + 1, i := 15 }

/-- Lines 16-17 assign a `double` to the `int` register `n`: the conversion
gives the value when it lies in the range of a 32-bit `int`, and is undefined
in C otherwise. -/
def toInt (v : Int) : Option Int :=
  if -2147483648 ≤ v ∧ v ≤ 2147483647 then some v else none

/-- Lines 15-17: the value assigned to `n` at an entry `e`, namely `e` when
bit `i` of the word `w` is 1 and `e - 1` when it is 0. -/
def child (e : Int) (w : Nat) (i : Nat) : Int :=
  if w.testBit i then e else e - 1

/-- Lines 15-18 at a node whose entry `e` is positive, `w` being the word
`*(hx + j)`: pick the child by bit `i` of `w`, then move to the next bit.
When the child does not fit the `int` register, the register has no defined
value: the state keeps the old node, and `body` does not let the loop go on
from it. -/
def descend (s : State) (e : Int) (w : Nat) : State :=
  advance
    { s with
      n := match toInt (child e w s.i) with
           | some c => c.toNat
           | none => s.n
      accesses := s.accesses ++ [.readLink s.n, .readBit s.j s.i, .readLink s.n] }

/-- Lines 23-24 at a node whose entry `e` is not positive:
`*(x + k++) = - *(link + n); n = 0;`. -/
def emit (s : State) (e : Int) : State :=
  { s with
    x := s.x.set s.k (-e)
    k := s.k + 1
    n := 0
    accesses := s.accesses ++ [.readLink s.n, .readLink s.n, .store s.k (-e)] }

/-- Lines 14-24: one execution of the body of the `while` loop. After the
budget test of lines 19-20, which does not use `n`, the run ends with a fault
when the conversion of lines 16-17 gave `n` no value. -/
def body (hx : List Nat) (link : List Int) (hxsz : Int) (s : State) : Step :=
  match link[s.n]? with
  | none => .halt (.fault (.readLink s.n)) s
  | some e =>
    if e > 0 then
      match hx[s.j]? with
      | none =>
        .halt (.fault (.readBit s.j s.i)) { s with accesses := s.accesses ++ [.readLink s.n] }
      | some w =>
        if ((descend s e w).j : Int) > hxsz then .halt .outOfBits (descend s e w)
        else if (toInt (child e w s.i)).isSome then .next (descend s e w)
        else .halt (.fault (.convert (child e w s.i))) (descend s e w)
    else
      if s.k < s.x.length then .next (emit s e)
      else
        .halt (.fault (.store s.k (-e)))
          { s with accesses := s.accesses ++ [.readLink s.n, .readLink s.n] }

/-- Lines 13-25: the `while (xsz - k)` loop, run for at most `fuel` executions
of its body; `none` when the loop has not stopped by then. -/
def loop (hx : List Nat) (link : List Int) (xsz : Nat) (hxsz : Int) :
    Nat → State → Option (Status × State)
  | fuel, s =>
    if (xsz : Int) - (s.k : Int) = 0 then some (.ok, s)
    else
      match fuel with
      | 0 => none
      | fuel + 1 =>
        match body hx link hxsz s with
        | .next s1 => loop hx link xsz hxsz fuel s1
        | .halt r s1 => some (r, s1)

/-- Lines 26-27: `if (k == xsz - 1) *(x + k++) = - *(link + n);`. -/
def trailing (link : List Int) (xsz : Nat) (s : State) : Status × State :=
  if (s.k : Int) = (xsz : Int) - 1 then
    match link[s.n]? with
    | none => (.fault (.readLink s.n), s)
    | some e =>
      if s.k < s.x.length then
        (.ok, { s with
                x := s.x.set s.k (-e)
                k := s.k + 1
                accesses := s.accesses ++ [.readLink s.n, .store s.k (-e)] })
      else
        (.fault (.store s.k (-e)), { s with accesses := s.accesses ++ [.readLink s.n] })
  else (.ok, s)

/-- What follows the loop: the trailing statement runs when the loop exited
through its test, and not after an error exit. -/
def finish (link : List Int) (xsz : Nat) : Status × State → Status × State
  | (.ok, s) => trailing link xsz s
  | r => r

/-- Lines 8-28 with the loop bounded by `fuel` body executions. -/
def unravelFuel (fuel : Nat) (hx : List Nat) (link : List Int) (x : List Int)
    (xsz : Nat) (hxsz : Int) : Option (Status × State) :=
  (loop hx link xsz hxsz fuel (init x)).map (finish link xsz)

/-- Number of loop iterations that always suffices: one per output value and
one per bit of the `hxsz + 1` words the loop may touch. -/
def iterationBound (xsz : Nat) (hxsz : Int) : Nat :=
  xsz + 16 * (hxsz + 1).toNat

/-- The function `unravel` (lines 8-28): final status and final state.
The result is never `none` (`unravel_isSome`), and more fuel does not change
it (`unravelFuel_eq_unravel`). -/
def unravel (hx : List Nat) (link : List Int) (x : List Int) (xsz : Nat) (hxsz : Int) :
    Option (Status × State) :=
  unravelFuel (iterationBound xsz hxsz) hx link x xsz hxsz

/-- The bit reads of an access log, as (word index, bit index) pairs. -/
def bitReads : List Event → List (Nat × Nat)
  | [] => []
  | .readBit j i :: es => (j, i) :: bitReads es
  | _ :: es => bitReads es

/-- The stores of an access log, as (position, value) pairs. -/
def stores : List Event → List (Nat × Int)
  | [] => []
  | .store k v :: es => (k, v) :: stores es
  | _ :: es => stores es

/-- The table reads of an access log. -/
def linkReads : List Event → List Nat
  | [] => []
  | .readLink n :: es => n :: linkReads es
  | _ :: es => linkReads es

/-- The function `unravel` with lines 26-27 (the trailing statement) removed. -/
def unravelNoTrailing (hx : List Nat) (link : List Int) (x : List Int) (xsz : Nat)
    (hxsz : Int) : Option (Status × State) :=
  loop hx link xsz hxsz (iterationBound xsz hxsz) (init x)

/-- Position of the bit cursor counted in bits from the start of the stream:
word `j`, bit `i` counted down from 15. -/
def bitPos (s : State) : Nat := 16 * s.j + (15 - s.i)

/-- The 16 bits of a code word, most significant first. -/
def wordBits (w : Nat) : List Bool :=
  (List.range 16).map (fun b => w.testBit (15 - b))

/-- The bit sequence of a stream of 16-bit words, most significant bit of the
first word first. -/
def streamBits : List Nat → List Bool
  | [] => []
  | w :: ws => wordBits w ++ streamBits ws

/-- The data model of the link table: from node `n` follow the bits of a path,
a positive entry `m` leading to node `m` on bit 1 and node `m - 1` on bit 0,
node ids being `int`s. `none` when the path leaves the table, names a node
that is no `int`, or continues below a leaf. -/
def walk (link : List Int) : Nat → List Bool → Option Nat
  | n, [] => some n
  | n, b :: bs =>
    match link[n]? with
    | none => none
    | some m =>
      if 0 < m then
        match toInt (if b then m else m - 1) with
        | none => none
        | some c => walk link c.toNat bs
      else none

/-- The symbol a codeword stands for: `c` is a root-to-leaf path of the table
and the value is the negation of the leaf entry it reaches. -/
def codeValue (link : List Int) (c : List Bool) : Option Int :=
  match walk link 0 c with
  | none => none
  | some n =>
    match link[n]? with
    | none => none
    | some e => if e ≤ 0 then some (-e) else none

/-- What holds of the state all along a run started on the buffer `x`. -/
structure Inv (link : List Int) (x : List Int) (xsz : Nat) (s : State) : Prop where
  /-- no more than `xsz` values are produced -/
  k_le : s.k ≤ xsz
  /-- the bit index stays inside a word -/
  i_le : s.i ≤ 15
  /-- the cursor stands right after the bits read so far -/
  cursor : bitPos s = (bitReads s.accesses).length
  /-- the bits were read in stream order -/
  reads : bitReads s.accesses =
    (List.range (bitReads s.accesses).length).map (fun t => (t / 16, 15 - t % 16))
  /-- the stores went to positions `0, 1, ..` in this order -/
  positions : (stores s.accesses).map Prod.fst = List.range s.k
  /-- the buffer holds the stored values, then what the caller left there -/
  buffer : s.x = (stores s.accesses).map Prod.snd ++ x.drop s.k
  /-- every stored value is the negation of a leaf entry -/
  values : ∀ p ∈ stores s.accesses, ∃ (n : Nat) (e : Int), link[n]? = some e ∧ e ≤ 0 ∧ p.2 = -e

/-- Number of bits the loop can still read from state `s` without running
over the word budget. -/
def bitsLeft (hxsz : Int) (s : State) : Nat :=
  if (s.j : Int) ≤ hxsz then s.i + 16 * (hxsz - s.j).toNat else 0

/-- What holds of the cursor each time control is at the loop test: unless
no bit has been read yet under a negative budget, the word index is within
the word budget. -/
def WithinBudget (hxsz : Int) (s : State) : Prop :=
  (bitReads s.accesses ≠ [] ∨ 0 ≤ hxsz) → (s.j : Int) ≤ hxsz

/-- Final state of the run on table `[2, -5, -7]`, stream `[0x8000]`, two
values requested: one bit read per value, the values 7 and 5 stored. -/
def scenarioFinal : State :=
  { i := 13, j := 0, k := 2, n := 0, x := [7, 5],
    accesses := [.readLink 0, .readBit 0 15, .readLink 0,
                 .readLink 2, .readLink 2, .store 0 7,
                 .readLink 0, .readBit 0 14, .readLink 0,
                 .readLink 1, .readLink 1, .store 1 5] }

/-- Final state of the run on table `[2, -5, -7]`, stream `[0x8000]`, one
value requested under the word budget -1: the error after the first bit. -/
def budgetFinal : State :=
  { i := 14, j := 0, k := 0, n := 2, x := [0],
    accesses := [.readLink 0, .readBit 0 15, .readLink 0] }

/-! ## Access logs -/

theorem bitReads_append (a b : List Event) : bitReads (a ++ b) = bitReads a ++ bitReads b := by
  induction a with
  | nil => rfl
  | cons e a ih => cases e <;> simp [bitReads, ih]

theorem stores_append (a b : List Event) : stores (a ++ b) = stores a ++ stores b := by
  induction a with
  | nil => rfl
  | cons e a ih => cases e <;> simp [stores, ih]

theorem linkReads_append (a b : List Event) :
    linkReads (a ++ b) = linkReads a ++ linkReads b := by
  induction a with
  | nil => rfl
  | cons e a ih => cases e <;> simp [linkReads, ih]

/-! ## The steps of the loop -/

theorem descend_k (s : State) (e : Int) (w : Nat) : (descend s e w).k = s.k := by
  by_cases h : s.i = 0 <;> simp [descend, advance, h]

theorem descend_x (s : State) (e : Int) (w : Nat) : (descend s e w).x = s.x := by
  by_cases h : s.i = 0 <;> simp [descend, advance, h]

theorem descend_n (s : State) (e : Int) (w : Nat) :
    (descend s e w).n =
      match toInt (child e w s.i) with
      | some c => c.toNat
      | none => s.n := by
  by_cases h : s.i = 0 <;> simp [descend, advance, h]

theorem descend_accesses (s : State) (e : Int) (w : Nat) :
    (descend s e w).accesses =
      s.accesses ++ [.readLink s.n, .readBit s.j s.i, .readLink s.n] := by
  by_cases h : s.i = 0 <;> simp [descend, advance, h]

theorem descend_i (s : State) (e : Int) (w : Nat) :
    (descend s e w).i = if s.i ≠ 0 then s.i - 1 else 15 := by
  by_cases h : s.i = 0 <;> simp [descend, advance, h]

theorem descend_j (s : State) (e : Int) (w : Nat) :
    (descend s e w).j = if s.i ≠ 0 then s.j else s.j + 1 := by
  by_cases h : s.i = 0 <;> simp [descend, advance, h]

theorem descend_bitPos (s : State) (e : Int) (w : Nat) (hi : s.i ≤ 15) :
    bitPos (descend s e w) = bitPos s + 1 := by
  unfold bitPos
  rw [descend_i, descend_j]
  split <;> omega

theorem toInt_eq_some {v c : Int} (h : toInt v = some c) :
    c = v ∧ -2147483648 ≤ v ∧ v ≤ 2147483647 := by
  unfold toInt at h
  split at h
  · simp only [Option.some.injEq] at h
    omega
  · cases h

theorem toInt_of_fit {v : Int} (h1 : -2147483648 ≤ v) (h2 : v ≤ 2147483647) :
    toInt v = some v := by
  unfold toInt
  rw [if_pos ⟨h1, h2⟩]

theorem toInt_isSome {v : Int} (h : (toInt v).isSome = true) : toInt v = some v := by
  obtain ⟨c, hc⟩ := Option.isSome_iff_exists.mp h
  obtain ⟨h1, h2, h3⟩ := toInt_eq_some hc
  exact toInt_of_fit h2 h3

theorem child_nonneg {e : Int} (he : 0 < e) (w i : Nat) : 0 ≤ child e w i := by
  unfold child
  split <;> omega

theorem descend_n_of_fit (s : State) (e : Int) (w : Nat)
    (h : toInt (child e w s.i) = some (child e w s.i)) :
    (descend s e w).n = (child e w s.i).toNat := by
  rw [descend_n, h]

/-- The seven ways through the loop body. -/
theorem body_cases (hx : List Nat) (link : List Int) (hxsz : Int) (s : State) :
    (link[s.n]? = none ∧ body hx link hxsz s = .halt (.fault (.readLink s.n)) s) ∨
    (∃ e, link[s.n]? = some e ∧ 0 < e ∧ hx[s.j]? = none ∧
      body hx link hxsz s = .halt (.fault (.readBit s.j s.i))
        { s with accesses := s.accesses ++ [.readLink s.n] }) ∨
    (∃ e w, link[s.n]? = some e ∧ 0 < e ∧ hx[s.j]? = some w ∧
      hxsz < ((descend s e w).j : Int) ∧
      body hx link hxsz s = .halt .outOfBits (descend s e w)) ∨
    (∃ e w, link[s.n]? = some e ∧ 0 < e ∧ hx[s.j]? = some w ∧
      ((descend s e w).j : Int) ≤ hxsz ∧ (toInt (child e w s.i)).isSome = true ∧
      body hx link hxsz s = .next (descend s e w)) ∨
    (∃ e, link[s.n]? = some e ∧ e ≤ 0 ∧ s.k < s.x.length ∧
      body hx link hxsz s = .next (emit s e)) ∨
    (∃ e, link[s.n]? = some e ∧ e ≤ 0 ∧ ¬ s.k < s.x.length ∧
      body hx link hxsz s = .halt (.fault (.store s.k (-e)))
        { s with accesses := s.accesses ++ [.readLink s.n, .readLink s.n] }) ∨
    (∃ e w, link[s.n]? = some e ∧ 0 < e ∧ hx[s.j]? = some w ∧
      ((descend s e w).j : Int) ≤ hxsz ∧ (toInt (child e w s.i)).isSome = false ∧
      body hx link hxsz s = .halt (.fault (.convert (child e w s.i))) (descend s e w)) := by
  cases hl : link[s.n]? with
  | none => exact Or.inl ⟨rfl, by simp [body, hl]⟩
  | some e =>
    by_cases he : 0 < e
    · cases hw : hx[s.j]? with
      | none => exact Or.inr (Or.inl ⟨e, rfl, he, rfl, by simp [body, hl, he, hw]⟩)
      | some w =>
        by_cases hj : hxsz < ((descend s e w).j : Int)
        · exact Or.inr (Or.inr (Or.inl ⟨e, w, rfl, he, rfl, hj, by simp [body, hl, he, hw, hj]⟩))
        · cases hc : (toInt (child e w s.i)).isSome with
          | true =>
            exact Or.inr (Or.inr (Or.inr (Or.inl
              ⟨e, w, rfl, he, rfl, by omega, hc, by simp [body, hl, he, hw, hj, hc]⟩)))
          | false =>
            exact Or.inr (Or.inr (Or.inr (Or.inr (Or.inr (Or.inr
              ⟨e, w, rfl, he, rfl, by omega, hc, by simp [body, hl, he, hw, hj, hc]⟩)))))
    · have he1 : e ≤ 0 := by omega
      by_cases hk : s.k < s.x.length
      · exact Or.inr (Or.inr (Or.inr (Or.inr (Or.inl
          ⟨e, rfl, he1, hk, by simp [body, hl, he, hk]⟩))))
      · exact Or.inr (Or.inr (Or.inr (Or.inr (Or.inr (Or.inl
          ⟨e, rfl, he1, hk, by simp [body, hl, he, hk]⟩)))))

theorem body_of_descend {hx : List Nat} {link : List Int} {hxsz : Int} {s : State}
    {e : Int} {w : Nat} (hl : link[s.n]? = some e) (he : 0 < e) (hw : hx[s.j]? = some w)
    (hj : ((descend s e w).j : Int) ≤ hxsz) (hc : (toInt (child e w s.i)).isSome = true) :
    body hx link hxsz s = .next (descend s e w) := by
  have : ¬ (hxsz < ((descend s e w).j : Int)) := by omega
  simp [body, hl, he, hw, this, hc]

theorem body_of_emit {hx : List Nat} {link : List Int} {hxsz : Int} {s : State}
    {e : Int} (hl : link[s.n]? = some e) (he : e ≤ 0) (hlt : s.k < s.x.length) :
    body hx link hxsz s = .next (emit s e) := by
  have : ¬ (e > 0) := by omega
  simp [body, hl, this, hlt]

theorem loop_done (hx : List Nat) (link : List Int) (xsz : Nat) (hxsz : Int) (fuel : Nat)
    (s : State) (h : s.k = xsz) : loop hx link xsz hxsz fuel s = some (.ok, s) := by
  cases fuel <;> simp [loop, h]

theorem loop_zero (hx : List Nat) (link : List Int) (xsz : Nat) (hxsz : Int)
    (s : State) (h : s.k ≠ xsz) : loop hx link xsz hxsz 0 s = none := by
  have : ¬ ((xsz : Int) - (s.k : Int) = 0) := by omega
  simp [loop, this]

theorem loop_succ (hx : List Nat) (link : List Int) (xsz : Nat) (hxsz : Int) (fuel : Nat)
    (s : State) (h : s.k ≠ xsz) :
    loop hx link xsz hxsz (fuel + 1) s =
      match body hx link hxsz s with
      | .next s1 => loop hx link xsz hxsz fuel s1
      | .halt r s1 => some (r, s1) := by
  have : ¬ ((xsz : Int) - (s.k : Int) = 0) := by omega
  simp [loop, this]

/-- Proof rule for the loop: a property kept by every body execution holds of
the state the loop ends in. -/
theorem loop_invariant {hx : List Nat} {link : List Int} {xsz : Nat} {hxsz : Int}
    (P : State → Prop) (Q : Status → State → Prop)
    (hnext : ∀ s s1, P s → s.k ≠ xsz → body hx link hxsz s = .next s1 → P s1)
    (hhalt : ∀ s r s1, P s → s.k ≠ xsz → body hx link hxsz s = .halt r s1 → Q r s1)
    (hdone : ∀ s, P s → s.k = xsz → Q .ok s) :
    ∀ (fuel : Nat) (s : State) (r : Status) (sf : State),
      P s → loop hx link xsz hxsz fuel s = some (r, sf) → Q r sf := by
  intro fuel
  induction fuel with
  | zero =>
    intro s r sf hP h
    by_cases hk : s.k = xsz
    · rw [loop_done _ _ _ _ _ _ hk] at h
      cases h
      exact hdone _ hP hk
    · rw [loop_zero _ _ _ _ _ hk] at h
      cases h
  | succ fuel ih =>
    intro s r sf hP h
    by_cases hk : s.k = xsz
    · rw [loop_done _ _ _ _ _ _ hk] at h
      cases h
      exact hdone _ hP hk
    · rw [loop_succ _ _ _ _ _ _ hk] at h
      cases hb : body hx link hxsz s with
      | next s1 =>
        rw [hb] at h
        exact ih s1 r sf (hnext s s1 hP hk hb) h
      | halt r1 s1 =>
        rw [hb] at h
        cases h
        exact hhalt s _ _ hP hk hb

/-- More fuel does not change a result. -/
theorem loop_mono {hx : List Nat} {link : List Int} {xsz : Nat} {hxsz : Int} :
    ∀ (fuel d : Nat) (s : State) (r : Status × State),
      loop hx link xsz hxsz fuel s = some r → loop hx link xsz hxsz (fuel + d) s = some r := by
  intro fuel
  induction fuel with
  | zero =>
    intro d s r h
    by_cases hk : s.k = xsz
    · rw [loop_done _ _ _ _ _ _ hk] at h ⊢
      exact h
    · rw [loop_zero _ _ _ _ _ hk] at h
      cases h
  | succ fuel ih =>
    intro d s r h
    by_cases hk : s.k = xsz
    · rw [loop_done _ _ _ _ _ _ hk] at h ⊢
      exact h
    · have e : fuel + 1 + d = (fuel + d) + 1 := by omega
      rw [e, loop_succ _ _ _ _ _ _ hk]
      rw [loop_succ _ _ _ _ _ _ hk] at h
      cases hb : body hx link hxsz s with
      | next s1 =>
        rw [hb] at h
        exact ih d s1 r h
      | halt r1 s1 =>
        rw [hb] at h
        exact h

/-! ## The invariant -/

theorem inv_init (link : List Int) (x : List Int) (xsz : Nat) : Inv link x xsz (init x) where
  k_le := Nat.zero_le _
  i_le := by simp [init]
  cursor := by simp [init, bitPos, bitReads]
  reads := by simp [init, bitReads]
  positions := by simp [init, stores]
  buffer := by simp [init, stores]
  values := by simp [init, stores]

/-- A state that differs only by table reads added to the log keeps the
invariant. -/
theorem inv_congr {link : List Int} {x : List Int} {xsz : Nat} {s t : State}
    (h : Inv link x xsz s) (hi : t.i = s.i) (hj : t.j = s.j) (hk : t.k = s.k)
    (hx : t.x = s.x) (hb : bitReads t.accesses = bitReads s.accesses)
    (hs : stores t.accesses = stores s.accesses) : Inv link x xsz t where
  k_le := by rw [hk]; exact h.k_le
  i_le := by rw [hi]; exact h.i_le
  cursor := by
    have := h.cursor
    unfold bitPos at this ⊢
    rw [hi, hj, hb]; exact this
  reads := by rw [hb]; exact h.reads
  positions := by rw [hs, hk]; exact h.positions
  buffer := by rw [hs, hk, hx]; exact h.buffer
  values := by rw [hs]; exact h.values

theorem inv_descend {link : List Int} {x : List Int} {xsz : Nat} {s : State}
    (h : Inv link x xsz s) (e : Int) (w : Nat) : Inv link x xsz (descend s e w) where
  k_le := by rw [descend_k]; exact h.k_le
  i_le := by rw [descend_i]; have := h.i_le; split <;> omega
  cursor := by
    rw [descend_bitPos _ _ _ h.i_le, descend_accesses, bitReads_append, h.cursor]
    simp [bitReads]
  reads := by
    have hc := h.cursor
    have hi := h.i_le
    have hr := h.reads
    unfold bitPos at hc
    rw [descend_accesses, bitReads_append]
    simp only [bitReads, List.length_append, List.length_singleton, List.range_succ,
      List.map_append, List.map_cons, List.map_nil]
    rw [← hr, ← hc]
    congr 2
    rw [Prod.mk.injEq]
    omega
  positions := by
    rw [descend_accesses, stores_append, descend_k]
    simpa [stores] using h.positions
  buffer := by
    rw [descend_accesses, stores_append, descend_k, descend_x]
    simpa [stores] using h.buffer
  values := by
    rw [descend_accesses, stores_append]
    simpa [stores] using h.values

theorem inv_stores_length {link : List Int} {x : List Int} {xsz : Nat} {s : State}
    (h : Inv link x xsz s) : (stores s.accesses).length = s.k := by
  have := congrArg List.length h.positions
  simpa using this

theorem inv_x_length {link : List Int} {x : List Int} {xsz : Nat} {s : State}
    (h : Inv link x xsz s) (hk : s.k ≤ x.length) : s.x.length = x.length := by
  have := congrArg List.length h.buffer
  rw [List.length_append, List.length_map, inv_stores_length h, List.length_drop] at this
  omega

theorem inv_k_lt {link : List Int} {x : List Int} {xsz : Nat} {s : State}
    (h : Inv link x xsz s) (hk : s.k < s.x.length) : s.k < x.length := by
  have := congrArg List.length h.buffer
  rw [List.length_append, List.length_map, inv_stores_length h, List.length_drop] at this
  omega

theorem inv_emit {link : List Int} {x : List Int} {xsz : Nat} {s : State}
    (h : Inv link x xsz s) (hk : s.k ≠ xsz) {e : Int} (hl : link[s.n]? = some e)
    (he : e ≤ 0) (hlt : s.k < s.x.length) : Inv link x xsz (emit s e) where
  k_le := by have := h.k_le; simp only [emit]; omega
  i_le := h.i_le
  cursor := by
    have := h.cursor
    simp only [emit, bitPos, bitReads_append] at this ⊢
    simpa [bitReads] using this
  reads := by
    have := h.reads
    simp only [emit, bitReads_append]
    simpa [bitReads] using this
  positions := by
    simp only [emit, stores_append]
    simp [stores, List.range_succ, h.positions]
  buffer := by
    have hlen := inv_stores_length h
    have hkx := inv_k_lt h hlt
    simp only [emit, stores_append]
    rw [h.buffer, List.set_append_right _ _ (by simp [hlen])]
    simp only [List.length_map, hlen, Nat.sub_self, stores, List.map_append, List.map_cons,
      List.map_nil, List.append_nil, List.append_assoc, List.singleton_append]
    rw [List.drop_eq_getElem_cons hkx]
    rfl
  values := by
    intro p hp
    simp only [emit, stores_append, stores, List.append_nil, List.mem_append,
      List.mem_singleton] at hp
    rcases hp with hp | hp
    · exact h.values p hp
    · exact ⟨s.n, e, hl, he, by rw [hp]⟩

/-- The invariant passes from any state to the state the loop ends in. -/
theorem inv_loop {hx : List Nat} {link : List Int} {x : List Int} {xsz : Nat} {hxsz : Int}
    (fuel : Nat) (s : State) (r : Status) (sf : State) (h : Inv link x xsz s)
    (hr : loop hx link xsz hxsz fuel s = some (r, sf)) : Inv link x xsz sf := by
  refine loop_invariant (Inv link x xsz) (fun _ t => Inv link x xsz t) ?_ ?_ ?_ fuel s r sf h hr
  · intro s s1 hs hk hb
    rcases body_cases hx link hxsz s with ⟨_, h1⟩ | ⟨e, _, _, _, h1⟩ |
      ⟨e, w, _, _, _, _, h1⟩ | ⟨e, w, _, _, _, _, _, h1⟩ |
      ⟨e, hl, he, hlt, h1⟩ | ⟨e, _, _, _, h1⟩ |
      ⟨e, w, hl7, he7, hw7, hj7, _, h1⟩ <;>
      rw [h1] at hb <;> cases hb
    · exact inv_descend hs e w
    · exact inv_emit hs hk hl he hlt
  · intro s r s1 hs hk hb
    rcases body_cases hx link hxsz s with ⟨_, h1⟩ | ⟨e, _, _, _, h1⟩ |
      ⟨e, w, _, _, _, _, h1⟩ | ⟨e, w, _, _, _, _, _, h1⟩ |
      ⟨e, hl, he, hlt, h1⟩ | ⟨e, _, _, _, h1⟩ |
      ⟨e, w, hl7, he7, hw7, hj7, _, h1⟩ <;>
      rw [h1] at hb <;> cases hb
    · exact hs
    · exact inv_congr hs rfl rfl rfl rfl (by simp [bitReads_append, bitReads])
        (by simp [stores_append, stores])
    · exact inv_descend hs e w
    · exact inv_congr hs rfl rfl rfl rfl (by simp [bitReads_append, bitReads])
        (by simp [stores_append, stores])
    · exact inv_descend hs e w
  · intro s hs _
    exact hs

/-- When the loop ends through its test, `k` equals `xsz`. -/
theorem loop_ok_k {hx : List Nat} {link : List Int} {xsz : Nat} {hxsz : Int}
    (fuel : Nat) (s sf : State) (hr : loop hx link xsz hxsz fuel s = some (.ok, sf)) :
    sf.k = xsz := by
  refine loop_invariant (fun _ => True) (fun r t => r = .ok → t.k = xsz) ?_ ?_ ?_
    fuel s .ok sf trivial hr rfl
  · intros; trivial
  · intro s r s1 _ _ hb hr
    subst hr
    rcases body_cases hx link hxsz s with ⟨_, h1⟩ | ⟨e, _, _, _, h1⟩ |
      ⟨e, w, _, _, _, _, h1⟩ | ⟨e, w, _, _, _, _, _, h1⟩ |
      ⟨e, hl, he, hlt, h1⟩ | ⟨e, _, _, _, h1⟩ |
      ⟨e, w, hl7, he7, hw7, hj7, _, h1⟩ <;>
      rw [h1] at hb <;> cases hb
  · intro s _ hk _
    exact hk

/-- The trailing statement does nothing once `k` equals `xsz`. -/
theorem trailing_of_k (link : List Int) (xsz : Nat) (s : State) (hk : s.k = xsz) :
    trailing link xsz s = (.ok, s) := by
  have : ¬ ((s.k : Int) = (xsz : Int) - 1) := by omega
  simp [trailing, this]

theorem finish_loop {hx : List Nat} {link : List Int} {xsz : Nat} {hxsz : Int}
    (fuel : Nat) (s : State) (r : Status × State)
    (hr : loop hx link xsz hxsz fuel s = some r) : finish link xsz r = r := by
  obtain ⟨st, sf⟩ := r
  cases st with
  | ok =>
    simp only [finish]
    exact trailing_of_k link xsz sf (loop_ok_k fuel s sf hr)
  | outOfBits => rfl
  | fault e => rfl

theorem unravelFuel_eq_loop (fuel : Nat) (hx : List Nat) (link : List Int) (x : List Int)
    (xsz : Nat) (hxsz : Int) :
    unravelFuel fuel hx link x xsz hxsz = loop hx link xsz hxsz fuel (init x) := by
  unfold unravelFuel
  cases h : loop hx link xsz hxsz fuel (init x) with
  | none => rfl
  | some r => simp [finish_loop fuel (init x) r h]

theorem unravel_eq_loop (hx : List Nat) (link : List Int) (x : List Int)
    (xsz : Nat) (hxsz : Int) :
    unravel hx link x xsz hxsz =
      loop hx link xsz hxsz (iterationBound xsz hxsz) (init x) :=
  unravelFuel_eq_loop _ hx link x xsz hxsz

theorem inv_unravel {hx : List Nat} {link : List Int} {x : List Int} {xsz : Nat} {hxsz : Int}
    {r : Status} {sf : State} (h : unravel hx link x xsz hxsz = some (r, sf)) :
    Inv link x xsz sf := by
  rw [unravel_eq_loop] at h
  exact inv_loop _ _ r sf (inv_init link x xsz) h

/-! ## Termination -/

theorem bitsLeft_descend (hxsz : Int) (s : State) (e : Int) (w : Nat)
    (h : ((descend s e w).j : Int) ≤ hxsz) :
    bitsLeft hxsz (descend s e w) + 1 ≤ bitsLeft hxsz s := by
  unfold bitsLeft
  rw [descend_j] at h
  rw [descend_i, descend_j]
  by_cases hi : s.i = 0
  · simp only [hi, ne_eq, not_true_eq_false, if_false] at h ⊢
    push_cast at h ⊢
    have h1 : (s.j : Int) ≤ hxsz := by omega
    rw [if_pos h, if_pos h1]
    omega
  · simp only [hi, ne_eq, not_false_eq_true, if_true] at h ⊢
    rw [if_pos h, if_pos h]
    omega

/-- The loop stops within `(xsz - k) + bitsLeft` executions of its body. -/
theorem loop_isSome {hx : List Nat} {link : List Int} {xsz : Nat} {hxsz : Int} :
    ∀ (fuel : Nat) (s : State), s.k ≤ xsz → (xsz - s.k) + bitsLeft hxsz s ≤ fuel →
      (loop hx link xsz hxsz fuel s).isSome = true := by
  intro fuel
  induction fuel with
  | zero =>
    intro s hk hf
    have : s.k = xsz := by omega
    rw [loop_done _ _ _ _ _ _ this]; rfl
  | succ fuel ih =>
    intro s hk hf
    by_cases hkx : s.k = xsz
    · rw [loop_done _ _ _ _ _ _ hkx]; rfl
    · rw [loop_succ _ _ _ _ _ _ hkx]
      rcases body_cases hx link hxsz s with ⟨_, h1⟩ | ⟨e, _, _, _, h1⟩ |
        ⟨e, w, _, _, _, _, h1⟩ | ⟨e, w, _, _, _, hj, _, h1⟩ |
        ⟨e, hl, he, hlt, h1⟩ | ⟨e, _, _, _, h1⟩ |
        ⟨e, w, hl7, he7, hw7, hj7, _, h1⟩ <;> rw [h1]
      · rfl
      · rfl
      · rfl
      · have hb := bitsLeft_descend hxsz s e w hj
        exact ih _ (by rw [descend_k]; exact hk) (by rw [descend_k]; omega)
      · have hb : bitsLeft hxsz (emit s e) = bitsLeft hxsz s := rfl
        exact ih _ (by simp only [emit]; omega) (by rw [hb]; simp only [emit]; omega)
      · rfl
      · rfl

theorem bitsLeft_init (x : List Int) (hxsz : Int) :
    bitsLeft hxsz (init x) + 1 ≤ 16 * (hxsz + 1).toNat ∨
      (hxsz < 0 ∧ bitsLeft hxsz (init x) = 0) := by
  unfold bitsLeft init
  simp only [Nat.cast_zero, sub_zero]
  by_cases h : (0 : Int) ≤ hxsz
  · rw [if_pos h]; left; omega
  · rw [if_neg h]; right; omega

theorem loop_init_isSome (hx : List Nat) (link : List Int) (x : List Int) (xsz : Nat)
    (hxsz : Int) (fuel : Nat) (hf : iterationBound xsz hxsz ≤ fuel) :
    (loop hx link xsz hxsz fuel (init x)).isSome = true := by
  apply loop_isSome fuel (init x) (Nat.zero_le _)
  have hk : (init x).k = 0 := rfl
  unfold iterationBound at hf
  rcases bitsLeft_init x hxsz with h | ⟨_, h⟩ <;> omega

/-- The result of `unravel` is defined: the loop always stops within the fuel
`unravel` gives it. -/
theorem unravel_isSome (hx : List Nat) (link : List Int) (x : List Int) (xsz : Nat)
    (hxsz : Int) : (unravel hx link x xsz hxsz).isSome = true := by
  rw [unravel_eq_loop]
  exact loop_init_isSome hx link x xsz hxsz _ (Nat.le_refl _)

/-- Any amount of fuel on which the loop stops gives the result of `unravel`. -/
theorem unravel_of_loop {hx : List Nat} {link : List Int} {x : List Int} {xsz : Nat}
    {hxsz : Int} {fuel : Nat} {r : Status × State}
    (h : loop hx link xsz hxsz fuel (init x) = some r) :
    unravel hx link x xsz hxsz = some r := by
  rw [unravel_eq_loop]
  have h1 := loop_init_isSome hx link x xsz hxsz _ (Nat.le_refl (iterationBound xsz hxsz))
  obtain ⟨r1, hr1⟩ := Option.isSome_iff_exists.mp h1
  have a := loop_mono _ fuel _ _ hr1
  have b := loop_mono _ (iterationBound xsz hxsz) _ _ h
  rw [Nat.add_comm] at b
  rw [a] at b
  rw [hr1]
  exact b

/-- With at least the fuel of `unravel`, `unravelFuel` is `unravel`. -/
theorem unravelFuel_eq_unravel (hx : List Nat) (link : List Int) (x : List Int) (xsz : Nat)
    (hxsz : Int) (fuel : Nat) (hf : iterationBound xsz hxsz ≤ fuel) :
    unravelFuel fuel hx link x xsz hxsz = unravel hx link x xsz hxsz := by
  rw [unravelFuel_eq_loop]
  obtain ⟨r, hr⟩ := Option.isSome_iff_exists.mp (loop_init_isSome hx link x xsz hxsz fuel hf)
  rw [hr, unravel_of_loop hr]

/-! ## The word budget -/

theorem withinBudget_init (x : List Int) (hxsz : Int) : WithinBudget hxsz (init x) := by
  intro h
  rcases h with h | h
  · exact absurd rfl h
  · simpa [init] using h

theorem withinBudget_emit {hxsz : Int} {s : State} (h : WithinBudget hxsz s) (e : Int) :
    WithinBudget hxsz (emit s e) := by
  intro h1
  apply h
  simpa [emit, bitReads_append, bitReads] using h1

theorem withinBudget_descend {hxsz : Int} (s : State) (e : Int) (w : Nat)
    (hj : ((descend s e w).j : Int) ≤ hxsz) : WithinBudget hxsz (descend s e w) :=
  fun _ => hj

theorem bitReads_descend_ne (s : State) (e : Int) (w : Nat) :
    bitReads (descend s e w).accesses ≠ [] := by
  rw [descend_accesses, bitReads_append]
  simp [bitReads]

/-- What the final state tells about the budget: the error is raised exactly
when a bit has been read and the word index stands beyond the budget. -/
theorem loop_budget {hx : List Nat} {link : List Int} {x : List Int} {xsz : Nat} {hxsz : Int}
    (fuel : Nat) (r : Status) (sf : State)
    (hr : loop hx link xsz hxsz fuel (init x) = some (r, sf)) :
    (r = .outOfBits ↔ (bitReads sf.accesses ≠ [] ∧ hxsz < (sf.j : Int))) ∧
    (r = .outOfBits → 0 ≤ hxsz → (sf.j : Int) = hxsz + 1 ∧ sf.i = 15) ∧
    (r = .outOfBits → sf.k < xsz) := by
  refine loop_invariant (fun s => Inv link x xsz s ∧ WithinBudget hxsz s)
    (fun r sf => (r = .outOfBits ↔ (bitReads sf.accesses ≠ [] ∧ hxsz < (sf.j : Int))) ∧
      (r = .outOfBits → 0 ≤ hxsz → (sf.j : Int) = hxsz + 1 ∧ sf.i = 15) ∧
      (r = .outOfBits → sf.k < xsz)) ?_ ?_ ?_ fuel (init x) r sf
    ⟨inv_init link x xsz, withinBudget_init x hxsz⟩ hr
  · intro s s1 ⟨hs, hw⟩ hk hb
    rcases body_cases hx link hxsz s with ⟨_, h1⟩ | ⟨e, _, _, _, h1⟩ |
      ⟨e, w, _, _, _, _, h1⟩ | ⟨e, w, _, _, _, hj, _, h1⟩ |
      ⟨e, hl, he, hlt, h1⟩ | ⟨e, _, _, _, h1⟩ |
      ⟨e, w, hl7, he7, hw7, hj7, _, h1⟩ <;>
      rw [h1] at hb <;> cases hb
    · exact ⟨inv_descend hs e w, withinBudget_descend s e w hj⟩
    · exact ⟨inv_emit hs hk hl he hlt, withinBudget_emit hw e⟩
  · intro s r s1 ⟨hs, hw⟩ hk hb
    have hnot : ∀ t : State, t.j = s.j → bitReads t.accesses = bitReads s.accesses →
        ¬ (bitReads t.accesses ≠ [] ∧ hxsz < (t.j : Int)) := by
      intro t htj htb ⟨h1, h2⟩
      rw [htb] at h1
      have := hw (Or.inl h1)
      rw [htj] at h2
      omega
    rcases body_cases hx link hxsz s with ⟨_, h1⟩ | ⟨e, _, _, _, h1⟩ |
      ⟨e, w, _, _, _, hj, h1⟩ | ⟨e, w, _, _, _, _, _, h1⟩ |
      ⟨e, hl, he, hlt, h1⟩ | ⟨e, _, _, _, h1⟩ |
      ⟨e, w, hl7, he7, hw7, hj7, _, h1⟩ <;>
      rw [h1] at hb <;> cases hb
    · exact ⟨⟨(by intro h; cases h), fun h => absurd h (hnot _ rfl rfl)⟩, (by intro h; cases h),
        (by intro h; cases h)⟩
    · exact ⟨⟨(by intro h; cases h), fun h => absurd h
        (hnot _ rfl (by simp [bitReads_append, bitReads]))⟩, (by intro h; cases h),
        (by intro h; cases h)⟩
    · refine ⟨⟨fun _ => ⟨bitReads_descend_ne s e w, hj⟩, fun _ => rfl⟩, ?_, ?_⟩
      · intro _ h0
        have hsj := hw (Or.inr h0)
        rw [descend_j] at hj ⊢
        rw [descend_i]
        by_cases hi : s.i = 0
        · simp only [hi, ne_eq, not_true_eq_false, if_false] at hj ⊢
          push_cast at hj ⊢
          exact ⟨by omega, trivial⟩
        · simp only [hi, ne_eq, not_false_eq_true, if_true] at hj
          omega
      · intro _
        rw [descend_k]
        have := hs.k_le
        omega
    · exact ⟨⟨(by intro h; cases h), fun h => absurd h
        (hnot _ rfl (by simp [bitReads_append, bitReads]))⟩, (by intro h; cases h),
        (by intro h; cases h)⟩
    · refine ⟨⟨(by intro h; cases h), fun ⟨_, h2⟩ => ?_⟩, (by intro h; cases h),
        (by intro h; cases h)⟩
      omega
  · intro s ⟨_, hw⟩ _
    refine ⟨⟨(by intro h; cases h), fun ⟨h1, h2⟩ => ?_⟩, (by intro h; cases h), (by intro h; cases h)⟩
    have := hw (Or.inl h1)
    omega

/-- Under a nonnegative budget a run that does not raise the error ends with
the word index within the budget. -/
theorem loop_within {hx : List Nat} {link : List Int} {x : List Int} {xsz : Nat} {hxsz : Int}
    (fuel : Nat) (r : Status) (sf : State) (h0 : 0 ≤ hxsz)
    (hr : loop hx link xsz hxsz fuel (init x) = some (r, sf)) (hne : r ≠ .outOfBits) :
    (sf.j : Int) ≤ hxsz := by
  refine loop_invariant (fun s => WithinBudget hxsz s)
    (fun r sf => r ≠ .outOfBits → (sf.j : Int) ≤ hxsz) ?_ ?_ ?_ fuel (init x) r sf
    (withinBudget_init x hxsz) hr hne
  · intro s s1 hw hk hb
    rcases body_cases hx link hxsz s with ⟨_, h1⟩ | ⟨e, _, _, _, h1⟩ |
      ⟨e, w, _, _, _, _, h1⟩ | ⟨e, w, _, _, _, hj, _, h1⟩ |
      ⟨e, hl, he, hlt, h1⟩ | ⟨e, _, _, _, h1⟩ |
      ⟨e, w, hl7, he7, hw7, hj7, _, h1⟩ <;>
      rw [h1] at hb <;> cases hb
    · exact withinBudget_descend s e w hj
    · exact withinBudget_emit hw e
  · intro s r s1 hw hk hb hne
    have hsj := hw (Or.inr h0)
    rcases body_cases hx link hxsz s with ⟨_, h1⟩ | ⟨e, _, _, _, h1⟩ |
      ⟨e, w, _, _, _, hj, h1⟩ | ⟨e, w, _, _, _, _, _, h1⟩ |
      ⟨e, hl, he, hlt, h1⟩ | ⟨e, _, _, _, h1⟩ |
      ⟨e, w, hl7, he7, hw7, hj7, _, h1⟩ <;>
      rw [h1] at hb <;> cases hb
    · exact hsj
    · exact hsj
    · exact absurd rfl hne
    · exact hsj
    · exact hj7
  · intro s hw _ _
    exact hw (Or.inr h0)

/-- Every bit read that completed took its word inside the stream. -/
theorem loop_reads_in_stream {hx : List Nat} {link : List Int} {xsz : Nat} {hxsz : Int}
    (fuel : Nat) (x : List Int) (r : Status) (sf : State)
    (hr : loop hx link xsz hxsz fuel (init x) = some (r, sf)) :
    ∀ p ∈ bitReads sf.accesses, p.1 < hx.length := by
  refine loop_invariant (fun s => ∀ p ∈ bitReads s.accesses, p.1 < hx.length)
    (fun _ sf => ∀ p ∈ bitReads sf.accesses, p.1 < hx.length) ?_ ?_ ?_ fuel (init x) r sf
    (by simp [init, bitReads]) hr
  · intro s s1 hs _ hb
    rcases body_cases hx link hxsz s with ⟨_, h1⟩ | ⟨e, _, _, _, h1⟩ |
      ⟨e, w, _, _, _, _, h1⟩ | ⟨e, w, _, _, hw, _, _, h1⟩ |
      ⟨e, _, _, _, h1⟩ | ⟨e, _, _, _, h1⟩ |
      ⟨e, w, hl7, he7, hw7, hj7, _, h1⟩ <;>
      rw [h1] at hb <;> cases hb
    · intro p hp
      rw [descend_accesses, bitReads_append] at hp
      simp only [bitReads, List.mem_append, List.mem_singleton] at hp
      rcases hp with hp | hp
      · exact hs p hp
      · rw [hp]
        exact (List.getElem?_eq_some.mp hw).1
    · intro p hp
      apply hs p
      simpa [emit, bitReads_append, bitReads] using hp
  · intro s r1 s1 hs _ hb
    rcases body_cases hx link hxsz s with ⟨_, h1⟩ | ⟨e, _, _, _, h1⟩ |
      ⟨e, w, _, _, hw, _, h1⟩ | ⟨e, w, _, _, _, _, _, h1⟩ |
      ⟨e, _, _, _, h1⟩ | ⟨e, _, _, _, h1⟩ |
      ⟨e, w, hl7, he7, hw7, hj7, _, h1⟩ <;>
      rw [h1] at hb <;> cases hb
    · exact hs
    · intro p hp
      apply hs p
      simpa [bitReads_append, bitReads] using hp
    · intro p hp
      rw [descend_accesses, bitReads_append] at hp
      simp only [bitReads, List.mem_append, List.mem_singleton] at hp
      rcases hp with hp | hp
      · exact hs p hp
      · rw [hp]
        exact (List.getElem?_eq_some.mp hw).1
    · intro p hp
      apply hs p
      simpa [bitReads_append, bitReads] using hp
    · intro p hp
      rw [descend_accesses, bitReads_append] at hp
      simp only [bitReads, List.mem_append, List.mem_singleton] at hp
      rcases hp with hp | hp
      · exact hs p hp
      · rw [hp]
        exact (List.getElem?_eq_some.mp hw7).1
  · intro s hs _
    exact hs

/-- On a stream of exactly as many words as the budget says, no run ends in
the error: the error needs 16 bits read from the word after the last. -/
theorem never_outOfBits (hx : List Nat) (link : List Int) (x : List Int) (xsz : Nat)
    (sf : State) : unravel hx link x xsz (hx.length : Int) ≠ some (.outOfBits, sf) := by
  intro h
  have hinv := inv_unravel h
  rw [unravel_eq_loop] at h
  obtain ⟨_, h2, _⟩ := loop_budget _ _ sf h
  obtain ⟨hj, hi⟩ := h2 rfl (by omega)
  have hc := hinv.cursor
  unfold bitPos at hc
  have hmem : (hx.length, 15) ∈ bitReads sf.accesses := by
    rw [hinv.reads, List.mem_map]
    refine ⟨16 * hx.length, ?_, ?_⟩
    · rw [List.mem_range]; omega
    · rw [Prod.mk.injEq]; omega
  have := loop_reads_in_stream _ x _ sf h _ hmem
  simp at this

/-! ## The bits of the stream -/

theorem wordBits_length (w : Nat) : (wordBits w).length = 16 := by
  simp [wordBits]

theorem wordBits_getElem? (w : Nat) (p : Nat) (hp : p < 16) :
    (wordBits w)[p]? = some (w.testBit (15 - p)) := by
  simp [wordBits, List.getElem?_map, List.getElem?_range, hp]

theorem streamBits_length (hx : List Nat) : (streamBits hx).length = 16 * hx.length := by
  induction hx with
  | nil => rfl
  | cons w ws ih =>
    simp only [streamBits, List.length_append, wordBits_length, ih, List.length_cons]
    omega

/-- Bit number `p` of the stream is bit `15 - p % 16` of word `p / 16`. -/
theorem streamBits_getElem? (hx : List Nat) :
    ∀ p : Nat, (streamBits hx)[p]? = (hx[p / 16]?).map (fun w => w.testBit (15 - p % 16)) := by
  induction hx with
  | nil => intro p; simp [streamBits]
  | cons w ws ih =>
    intro p
    by_cases hp : p < 16
    · have h0 : p / 16 = 0 := by omega
      have h1 : p % 16 = p := by omega
      rw [streamBits, List.getElem?_append_left (by rw [wordBits_length]; exact hp),
        wordBits_getElem? w p hp, h0, h1]
      simp
    · have h0 : p / 16 = (p - 16) / 16 + 1 := by omega
      have h1 : p % 16 = (p - 16) % 16 := by omega
      rw [streamBits, List.getElem?_append_right (by rw [wordBits_length]; omega),
        wordBits_length, ih, h0, h1, List.getElem?_cons_succ]

/-- When the stream from the cursor on starts with the bit `b`, the word
under the cursor exists and its bit `i` is `b`. -/
theorem stream_bit_at {hx : List Nat} {s : State} {b : Bool} {rest : List Bool}
    (hi : s.i ≤ 15) (h : (streamBits hx).drop (bitPos s) = b :: rest) :
    (∃ w, hx[s.j]? = some w ∧ w.testBit s.i = b) ∧
      (streamBits hx).drop (bitPos s + 1) = rest := by
  have h1 : (streamBits hx)[bitPos s]? = some b := by
    have := List.getElem?_drop (streamBits hx) (bitPos s) 0
    rw [h] at this
    simpa using this.symm
  have h2 : (streamBits hx).drop (bitPos s + 1) = rest := by
    rw [← List.drop_drop, h]
    rfl
  refine ⟨?_, h2⟩
  rw [streamBits_getElem?] at h1
  have e1 : bitPos s / 16 = s.j := by unfold bitPos; omega
  have e2 : 15 - bitPos s % 16 = s.i := by unfold bitPos; omega
  rw [e1, e2] at h1
  cases hw : hx[s.j]? with
  | none => rw [hw] at h1; cases h1
  | some w =>
    rw [hw] at h1
    simp only [Option.map_some', Option.some.injEq] at h1
    exact ⟨w, rfl, h1⟩

/-! ## Decoding -/

/-- Following a path of the table: when the stream from the cursor on starts
with the bits `c` and these lie within the budget, the loop walks from its
node down the path `c`, one bit per execution of the body. -/
theorem loop_walk {hx : List Nat} {link : List Int} {xsz : Nat} {hxsz : Int} :
    ∀ (c : List Bool) (s : State) (n1 : Nat) (t : List Bool),
      walk link s.n c = some n1 → (streamBits hx).drop (bitPos s) = c ++ t →
      s.i ≤ 15 → ((bitPos s + c.length : Nat) : Int) ≤ 16 * hxsz → s.k ≠ xsz →
      ∃ s1, (∀ fuel, loop hx link xsz hxsz (fuel + c.length) s =
              loop hx link xsz hxsz fuel s1) ∧
        s1.n = n1 ∧ s1.k = s.k ∧ s1.x = s.x ∧ bitPos s1 = bitPos s + c.length ∧
        s1.i ≤ 15 := by
  intro c
  induction c with
  | nil =>
    intro s n1 t hw _ hi _ _
    simp only [walk, Option.some.injEq] at hw
    exact ⟨s, fun _ => rfl, hw, rfl, rfl, rfl, hi⟩
  | cons b c ih =>
    intro s n1 t hw hd hi hlen hk
    simp only [walk] at hw
    cases hl : link[s.n]? with
    | none => rw [hl] at hw; cases hw
    | some m =>
      rw [hl] at hw
      simp only at hw
      by_cases hm : 0 < m
      · rw [if_pos hm] at hw
        obtain ⟨⟨w, hw1, hw2⟩, hrest⟩ := stream_bit_at hi hd
        have hch : child m w s.i = if b then m else m - 1 := by
          unfold child; rw [hw2]
        cases hc : toInt (if b then m else m - 1) with
        | none => rw [hc] at hw; cases hw
        | some c1 =>
          rw [hc] at hw
          simp only at hw
          have hfit : toInt (child m w s.i) = some c1 := by rw [hch]; exact hc
          have hpos := descend_bitPos s m w hi
          have hi1 : (descend s m w).i ≤ 15 := by rw [descend_i]; split <;> omega
          have hj : ((descend s m w).j : Int) ≤ hxsz := by
            have : bitPos (descend s m w) =
                16 * (descend s m w).j + (15 - (descend s m w).i) := rfl
            simp only [List.length_cons] at hlen
            omega
          have hb : body hx link hxsz s = .next (descend s m w) :=
            body_of_descend hl hm hw1 hj (by rw [hfit]; rfl)
          have hn : (descend s m w).n = c1.toNat := by rw [descend_n, hfit]
          obtain ⟨s1, h1, h2, h3, h4, h5, h6⟩ := ih (descend s m w) n1 t
            (by rw [hn]; exact hw) (by rw [hpos]; exact hrest) hi1
            (by rw [hpos]; simp only [List.length_cons] at hlen; omega)
            (by rw [descend_k]; exact hk)
          refine ⟨s1, ?_, h2, by rw [h3, descend_k], by rw [h4, descend_x], ?_, h6⟩
          · intro fuel
            have e : fuel + (b :: c).length = (fuel + c.length) + 1 := by
              simp only [List.length_cons]; omega
            rw [e, loop_succ _ _ _ _ _ _ hk, hb]
            exact h1 fuel
          · rw [h5, hpos]
            simp only [List.length_cons]
            omega
      · rw [if_neg hm] at hw
        cases hw

/-- Decoding one codeword: the loop walks down the path and stores the value
of the leaf, in one execution of the body more than the codeword has bits. -/
theorem loop_symbol {hx : List Nat} {link : List Int} {xsz : Nat} {hxsz : Int}
    (c : List Bool) (v : Int) (s : State) (t : List Bool)
    (hc : codeValue link c = some v) (hn : s.n = 0)
    (hd : (streamBits hx).drop (bitPos s) = c ++ t) (hi : s.i ≤ 15)
    (hlen : ((bitPos s + c.length : Nat) : Int) ≤ 16 * hxsz) (hk : s.k ≠ xsz)
    (hlt : s.k < s.x.length) :
    ∃ s2, (∀ fuel, loop hx link xsz hxsz (fuel + (c.length + 1)) s =
            loop hx link xsz hxsz fuel s2) ∧
      s2.n = 0 ∧ s2.k = s.k + 1 ∧ s2.x = s.x.set s.k v ∧
      bitPos s2 = bitPos s + c.length ∧ s2.i ≤ 15 := by
  unfold codeValue at hc
  cases hw : walk link 0 c with
  | none => rw [hw] at hc; cases hc
  | some n1 =>
    rw [hw] at hc
    simp only at hc
    cases hl : link[n1]? with
    | none => rw [hl] at hc; cases hc
    | some e =>
      rw [hl] at hc
      simp only at hc
      by_cases he : e ≤ 0
      · rw [if_pos he] at hc
        simp only [Option.some.injEq] at hc
        obtain ⟨s1, h1, h2, h3, h4, h5, h6⟩ :=
          @loop_walk hx link xsz hxsz c s n1 t (by rw [hn]; exact hw) hd hi hlen hk
        have hb : body hx link hxsz s1 = .next (emit s1 e) := by
          unfold body
          have : ¬ (e > 0) := by omega
          simp [h2, hl, this, h3, h4, hlt]
        refine ⟨emit s1 e, ?_, rfl, ?_, ?_, ?_, h6⟩
        · intro fuel
          have e1 : fuel + (c.length + 1) = (fuel + 1) + c.length := by omega
          rw [e1, h1 (fuel + 1), loop_succ _ _ _ _ _ _ (by rw [h3]; exact hk), hb]
        · simp only [emit]; rw [h3]
        · simp only [emit]; rw [h3, h4, hc]
        · exact h5
      · rw [if_neg he] at hc
        cases hc

/-- Decoding a sequence of codewords: when the stream from the cursor on
starts with their concatenation, the loop stores their values one after the
other and exits through its test. -/
theorem loop_symbols {hx : List Nat} {link : List Int} {xsz : Nat} {hxsz : Int} :
    ∀ (cs : List (List Bool)) (vs : List Int) (s : State) (t : List Bool),
      List.Forall₂ (fun c v => codeValue link c = some v) cs vs → s.n = 0 →
      (streamBits hx).drop (bitPos s) = cs.flatten ++ t → s.i ≤ 15 →
      ((bitPos s + cs.flatten.length : Nat) : Int) ≤ 16 * hxsz →
      s.k + cs.length = xsz → xsz ≤ s.x.length →
      ∃ fuel sf, loop hx link xsz hxsz fuel s = some (.ok, sf) ∧
        sf.x = s.x.take s.k ++ vs ++ s.x.drop xsz := by
  intro cs vs s t hf
  induction hf generalizing s with
  | nil =>
    intro _ _ _ _ hk _
    simp only [List.length_nil, Nat.add_zero] at hk
    refine ⟨0, s, loop_done _ _ _ _ _ _ hk, ?_⟩
    rw [hk, List.append_nil, List.take_append_drop]
  | @cons c v cs vs hcv _ ih =>
    intro hn hd hi hlen hk hbuf
    simp only [List.flatten_cons, List.length_append, List.length_cons,
      List.append_assoc] at hd hlen hk
    obtain ⟨s2, h1, h2, h3, h4, h5, h6⟩ :=
      @loop_symbol hx link xsz hxsz c v s (cs.flatten ++ t) hcv hn hd hi
        (by omega) (by omega) (by omega)
    have hd2 : (streamBits hx).drop (bitPos s2) = cs.flatten ++ t := by
      rw [h5, ← List.drop_drop, hd, List.drop_left]
    have hlen2 : (s.x.set s.k v).length = s.x.length := by simp
    obtain ⟨fuel, sf, hr, hx2⟩ := ih s2 h2 hd2 h6 (by rw [h5]; omega) (by omega)
      (by rw [h4, hlen2]; exact hbuf)
    refine ⟨fuel + (c.length + 1), sf, by rw [h1 fuel]; exact hr, ?_⟩
    rw [hx2, h3, h4, List.drop_set_of_lt _ _ (by omega), List.take_succ]
    have hg : (s.x.set s.k v)[s.k]? = some v := by
      simp only [List.getElem?_set_self (show s.k < s.x.length by omega)]
    have ht : (s.x.set s.k v).take s.k = s.x.take s.k := by
      rw [List.set_eq_take_append_cons_drop, if_pos (show s.k < s.x.length by omega)]
      rw [List.take_left']
      simp only [List.length_take]
      omega
    rw [hg, ht]
    simp

/-! ## Comparing runs -/

/-- The log only grows along a run. -/
theorem loop_accesses {hx : List Nat} {link : List Int} {xsz : Nat} {hxsz : Int}
    (fuel : Nat) (s : State) (r : Status) (sf : State)
    (hr : loop hx link xsz hxsz fuel s = some (r, sf)) :
    ∃ l, sf.accesses = s.accesses ++ l := by
  refine loop_invariant (fun t => ∃ l, t.accesses = s.accesses ++ l)
    (fun _ t => ∃ l, t.accesses = s.accesses ++ l) ?_ ?_ ?_ fuel s r sf ⟨[], by simp⟩ hr
  · intro t t1 ⟨l, hl⟩ _ hb
    rcases body_cases hx link hxsz t with ⟨_, h1⟩ | ⟨e, _, _, _, h1⟩ |
      ⟨e, w, _, _, _, _, h1⟩ | ⟨e, w, _, _, _, _, _, h1⟩ |
      ⟨e, _, _, _, h1⟩ | ⟨e, _, _, _, h1⟩ |
      ⟨e, w, hl7, he7, hw7, hj7, _, h1⟩ <;>
      rw [h1] at hb <;> cases hb
    · exact ⟨l ++ [.readLink t.n, .readBit t.j t.i, .readLink t.n], by
        rw [descend_accesses, hl, List.append_assoc]⟩
    · exact ⟨l ++ [.readLink t.n, .readLink t.n, .store t.k (-e)], by
        simp only [emit]; rw [hl, List.append_assoc]⟩
  · intro t r1 t1 ⟨l, hl⟩ _ hb
    rcases body_cases hx link hxsz t with ⟨_, h1⟩ | ⟨e, _, _, _, h1⟩ |
      ⟨e, w, _, _, _, _, h1⟩ | ⟨e, w, _, _, _, _, _, h1⟩ |
      ⟨e, _, _, _, h1⟩ | ⟨e, _, _, _, h1⟩ |
      ⟨e, w, hl7, he7, hw7, hj7, _, h1⟩ <;>
      rw [h1] at hb <;> cases hb
    · exact ⟨l, hl⟩
    · exact ⟨l ++ [.readLink t.n], by simp only; rw [hl, List.append_assoc]⟩
    · exact ⟨l ++ [.readLink t.n, .readBit t.j t.i, .readLink t.n], by
        rw [descend_accesses, hl, List.append_assoc]⟩
    · exact ⟨l ++ [.readLink t.n, .readLink t.n], by simp only; rw [hl, List.append_assoc]⟩
    · exact ⟨l ++ [.readLink t.n, .readBit t.j t.i, .readLink t.n], by
        rw [descend_accesses, hl, List.append_assoc]⟩
  · intro t ht _
    exact ht

/-- A run that returns for `m` values passes, on its way, through the end of
the run for `n ≤ m` values: the run for `n` values, on any buffer of at least
`n` cells, returns there with the same log. -/
theorem loop_shorter {hx : List Nat} {link : List Int} {hxsz : Int} {n m : Nat}
    (hnm : n ≤ m) :
    ∀ (fuel : Nat) (s t sm : State), t.i = s.i → t.j = s.j → t.k = s.k → t.n = s.n →
      t.accesses = s.accesses → s.k ≤ n → n ≤ t.x.length →
      loop hx link m hxsz fuel s = some (.ok, sm) →
      ∃ sn l, loop hx link n hxsz fuel t = some (.ok, sn) ∧ sn.k = n ∧
        sm.accesses = sn.accesses ++ l := by
  intro fuel
  induction fuel with
  | zero =>
    intro s t sm hi hj hk hn ha hkn hlen h
    by_cases hkm : s.k = m
    · obtain ⟨l, hl⟩ := loop_accesses _ _ _ _ h
      have : t.k = n := by omega
      exact ⟨t, l, loop_done _ _ _ _ _ _ this, this, by rw [hl, ha]⟩
    · rw [loop_zero _ _ _ _ _ hkm] at h
      cases h
  | succ fuel ih =>
    intro s t sm hi hj hk hn ha hkn hlen h
    by_cases hkn1 : s.k = n
    · obtain ⟨l, hl⟩ := loop_accesses _ _ _ _ h
      have : t.k = n := by omega
      exact ⟨t, l, loop_done _ _ _ _ _ _ this, this, by rw [hl, ha]⟩
    · have hkm : s.k ≠ m := by omega
      have htk : t.k ≠ n := by omega
      rw [loop_succ _ _ _ _ _ _ hkm] at h
      rw [loop_succ _ _ _ _ _ _ htk]
      rcases body_cases hx link hxsz s with ⟨_, h1⟩ | ⟨e, _, _, _, h1⟩ |
        ⟨e, w, _, _, _, _, h1⟩ | ⟨e, w, hl, he, hw, hjd, hfit, h1⟩ |
        ⟨e, hl, he, hlt, h1⟩ | ⟨e, _, _, _, h1⟩ |
        ⟨e, w, hl7, he7, hw7, hj7, _, h1⟩ <;> rw [h1] at h <;> try cases h
      · have hij : (descend t e w).j = (descend s e w).j := by
          rw [descend_j, descend_j, hi, hj]
        rw [body_of_descend (by rw [hn]; exact hl) he (by rw [hj]; exact hw)
          (by rw [hij]; exact hjd) (by rw [hi]; exact hfit)]
        exact ih (descend s e w) (descend t e w) sm
          (by rw [descend_i, descend_i, hi]) hij (by rw [descend_k, descend_k, hk])
          (by rw [descend_n, descend_n, hi, hn])
          (by rw [descend_accesses, descend_accesses, ha, hn, hi, hj])
          (by rw [descend_k]; exact hkn) (by rw [descend_x]; exact hlen) h
      · rw [body_of_emit (by rw [hn]; exact hl) he (by omega)]
        exact ih (emit s e) (emit t e) sm hi hj (by simp only [emit]; omega) rfl
          (by simp only [emit]; rw [ha, hn, hk])
          (by simp only [emit]; omega) (by simp only [emit, List.length_set]; exact hlen) h

/-- A larger word budget changes nothing in a body execution that did not
raise the error. -/
theorem body_budget {hx : List Nat} {link : List Int} {b c : Int} (hbc : b ≤ c) (s : State) :
    (∀ s1, body hx link b s = .next s1 → body hx link c s = .next s1) ∧
      (∀ r s1, body hx link b s = .halt r s1 → r ≠ .outOfBits →
        body hx link c s = .halt r s1) := by
  rcases body_cases hx link b s with ⟨hl, h1⟩ | ⟨e, hl, he, hw, h1⟩ |
    ⟨e, w, hl, he, hw, hj, h1⟩ | ⟨e, w, hl, he, hw, hj, hfit, h1⟩ |
    ⟨e, hl, he, hlt, h1⟩ | ⟨e, hl, he, hlt, h1⟩ |
    ⟨e, w, hl7, he7, hw7, hj7, hc7, h1⟩ <;> rw [h1]
  · refine ⟨(by intro s1 h; cases h), fun r s1 h _ => ?_⟩
    cases h
    unfold body; simp [hl]
  · refine ⟨(by intro s1 h; cases h), fun r s1 h _ => ?_⟩
    cases h
    unfold body; simp [hl, he, hw]
  · refine ⟨(by intro s1 h; cases h), fun r s1 h hr => ?_⟩
    cases h
    exact absurd rfl hr
  · refine ⟨fun s1 h => ?_, fun r s1 h _ => by cases h⟩
    cases h
    exact body_of_descend hl he hw (by omega) hfit
  · refine ⟨fun s1 h => ?_, fun r s1 h _ => by cases h⟩
    cases h
    exact body_of_emit hl he hlt
  · refine ⟨(by intro s1 h; cases h), fun r s1 h _ => ?_⟩
    cases h
    unfold body
    have : ¬ (e > 0) := by omega
    simp [hl, this, hlt]
  · refine ⟨(by intro s1 h; cases h), fun r s1 h _ => ?_⟩
    cases h
    have : ¬ (c < ((descend s e w).j : Int)) := by omega
    simp [body, hl7, he7, hw7, this, hc7]

/-- A run that did not raise the error runs the same under a larger budget. -/
theorem loop_budget_mono {hx : List Nat} {link : List Int} {xsz : Nat} {b c : Int}
    (hbc : b ≤ c) :
    ∀ (fuel : Nat) (s : State) (r : Status) (sf : State),
      loop hx link xsz b fuel s = some (r, sf) → r ≠ .outOfBits →
      loop hx link xsz c fuel s = some (r, sf) := by
  intro fuel
  induction fuel with
  | zero =>
    intro s r sf h _
    by_cases hk : s.k = xsz
    · rw [loop_done _ _ _ _ _ _ hk] at h ⊢
      exact h
    · rw [loop_zero _ _ _ _ _ hk] at h
      cases h
  | succ fuel ih =>
    intro s r sf h hr
    by_cases hk : s.k = xsz
    · rw [loop_done _ _ _ _ _ _ hk] at h ⊢
      exact h
    · rw [loop_succ _ _ _ _ _ _ hk] at h
      rw [loop_succ _ _ _ _ _ _ hk]
      obtain ⟨hb1, hb2⟩ := @body_budget hx link b c hbc s
      cases hb : body hx link b s with
      | next s1 =>
        rw [hb] at h
        rw [hb1 s1 hb]
        exact ih s1 r sf h hr
      | halt r1 s1 =>
        rw [hb] at h
        cases h
        rw [hb2 _ _ hb hr]

/-! ## The claims -/

/-- C1: `unravel` inverts the prefix code of a table. For every table `link`,
every sequence `cs` of codewords, each a path of bits from node 0 to a leaf of
the table (bit 1 to node `m`, bit 0 to node `m - 1` at an entry `m > 0`),
`vs` being the negated leaf entries they reach, and every stream `hx` whose
bits, most significant first, start with the concatenation of `cs` (whatever
follows, and also when nothing follows), `unravel` called with
`xsz = cs.length`, the word budget `hx.length` and a buffer of `xsz` cells
returns, and the output is `vs`. The codewords being paths of the table is all
that is asked of it, so this holds in particular of every valid tree. -/
theorem unravel_decodes (link : List Int) (hx : List Nat) (x : List Int)
    (cs : List (List Bool)) (vs : List Int)
    (hcode : List.Forall₂ (fun c v => codeValue link c = some v) cs vs)
    (hstream : cs.flatten <+: streamBits hx) (hbuf : x.length = cs.length) :
    ∃ sf, unravel hx link x cs.length (hx.length : Int) = some (.ok, sf) ∧ sf.x = vs := by
  obtain ⟨t, ht⟩ := hstream
  have hlen := congrArg List.length ht
  rw [List.length_append, streamBits_length] at hlen
  obtain ⟨fuel, sf, hr, hsx⟩ := @loop_symbols hx link cs.length
    (hx.length : Int) cs vs (init x) t hcode rfl
    (by simpa [bitPos, init] using ht.symm) (by simp [init])
    (by simp only [bitPos, init]; omega) (by simp [init]) (by simp [init, hbuf])
  refine ⟨sf, unravel_of_loop hr, ?_⟩
  rw [hsx]
  simp [init, ← hbuf]

theorem unravel_decodes_witness :
    List.Forall₂ (fun c v => codeValue [2, -5, -7] c = some v) [[true], [false]] [7, 5] ∧
      [[true], [false]].flatten <+: streamBits [0x8000] ∧
      ([0, 0] : List Int).length = [[true], [false]].length ∧
      ∃ sf, unravel [0x8000] [2, -5, -7] [0, 0] [[true], [false]].length
          (([0x8000] : List Nat).length : Int) = some (.ok, sf) ∧ sf.x = [7, 5] :=
  ⟨List.Forall₂.cons (by decide) (List.Forall₂.cons (by decide) List.Forall₂.nil),
    ⟨List.replicate 14 false, by decide⟩, by decide,
    unravel_decodes [2, -5, -7] [0x8000] [0, 0] [[true], [false]] [7, 5]
      (List.Forall₂.cons (by decide) (List.Forall₂.cons (by decide) List.Forall₂.nil))
      ⟨List.replicate 14 false, by decide⟩ (by decide)⟩

/-- C5: with table `[2, -5, -7]`, stream `[0x8000]`, a word budget of 1 and two
values requested, `unravel` returns and the output is `[7, 5]`: the first bit,
a 1, leads from the root to node 2 and its leaf 7, the next bit, a 0, leads
from the root to node 1 and its leaf 5. -/
theorem unravel_scenario :
    unravel [0x8000] [2, -5, -7] [0, 0] 2 1 = some (.ok, scenarioFinal) ∧
      scenarioFinal.x = [7, 5] := by
  decide

/-- C2, where the code departs from it: with table `[2, -5, -7]`, an empty
stream, a word budget of 0 and one value requested, `unravel` does not raise
the error; it reads bit 15 of word 0, which the stream does not have. When a
word `0x8000` lies there, that read succeeds and the run returns the value 7
although the budget was 0 words. And on no stream of exactly as many words as
the budget says does a run end in the error. -/
theorem unravel_reads_past_budget :
    unravel [] [2, -5, -7] [0] 1 0 =
        some (.fault (.readBit 0 15),
          { i := 15, j := 0, k := 0, n := 0, x := [0], accesses := [.readLink 0] }) ∧
      unravel [0x8000] [2, -5, -7] [0] 1 0 =
        some (.ok,
          { i := 14, j := 0, k := 1, n := 0, x := [7],
            accesses := [.readLink 0, .readBit 0 15, .readLink 0,
                         .readLink 2, .readLink 2, .store 0 7] }) ∧
      ∀ (hx : List Nat) (link : List Int) (x : List Int) (xsz : Nat) (sf : State),
        unravel hx link x xsz (hx.length : Int) ≠ some (.outOfBits, sf) :=
  ⟨by decide, by decide, never_outOfBits⟩

/-- C3: when `unravel` returns, it has stored exactly `xsz` values, at the
positions `0, 1, .., xsz - 1` in this order; `k` equals `xsz` and the buffer
holds the stored values followed by what the caller had beyond `xsz`. -/
theorem unravel_length (hx : List Nat) (link : List Int) (x : List Int) (xsz : Nat)
    (hxsz : Int) (sf : State) (h : unravel hx link x xsz hxsz = some (.ok, sf)) :
    sf.k = xsz ∧ (stores sf.accesses).map Prod.fst = List.range xsz ∧
      (stores sf.accesses).length = xsz ∧
      sf.x = (stores sf.accesses).map Prod.snd ++ x.drop xsz := by
  have hinv := inv_unravel h
  rw [unravel_eq_loop] at h
  have hk := loop_ok_k _ _ _ h
  refine ⟨hk, ?_, ?_, ?_⟩
  · rw [← hk]; exact hinv.positions
  · rw [← hk]; exact inv_stores_length hinv
  · rw [← hk]; exact hinv.buffer

theorem unravel_length_witness :
    unravel [0x8000] [2, -5, -7] [0, 0] 2 1 = some (.ok, scenarioFinal) ∧
      (scenarioFinal.k = 2 ∧ (stores scenarioFinal.accesses).map Prod.fst = List.range 2 ∧
        (stores scenarioFinal.accesses).length = 2 ∧
        scenarioFinal.x =
          (stores scenarioFinal.accesses).map Prod.snd ++ ([0, 0] : List Int).drop 2) :=
  ⟨by decide, unravel_length [0x8000] [2, -5, -7] [0, 0] 2 1 scenarioFinal (by decide)⟩

/-- C4: when the table is the single leaf `[v]`, `v ≤ 0`, then for every
stream, every word budget and every `xsz` (the buffer holding `xsz` cells)
`unravel` returns, the output is `xsz` copies of `-v`, no bit of the stream is
read and the cursor still stands at word 0, bit 15. -/
theorem unravel_degenerate (v : Int) (hv : v ≤ 0) (hx : List Nat) (x : List Int)
    (xsz : Nat) (hxsz : Int) (hlen : x.length = xsz) :
    ∃ sf, unravel hx [v] x xsz hxsz = some (.ok, sf) ∧
      sf.x = List.replicate xsz (-v) ∧ bitReads sf.accesses = [] ∧
      sf.j = 0 ∧ sf.i = 15 := by
  obtain ⟨⟨r, sf⟩, hr⟩ := Option.isSome_iff_exists.mp (unravel_isSome hx [v] x xsz hxsz)
  have hl := hr
  rw [unravel_eq_loop] at hl
  have key : r = .ok ∧ sf.k = xsz ∧ (Inv [v] x xsz sf ∧ sf.n = 0 ∧ sf.i = 15 ∧ sf.j = 0 ∧
      bitReads sf.accesses = [] ∧ ∀ p ∈ stores sf.accesses, p.2 = -v) := by
    refine loop_invariant
      (fun s => Inv [v] x xsz s ∧ s.n = 0 ∧ s.i = 15 ∧ s.j = 0 ∧
        bitReads s.accesses = [] ∧ ∀ p ∈ stores s.accesses, p.2 = -v)
      (fun r sf => r = .ok ∧ sf.k = xsz ∧ (Inv [v] x xsz sf ∧ sf.n = 0 ∧ sf.i = 15 ∧
        sf.j = 0 ∧ bitReads sf.accesses = [] ∧ ∀ p ∈ stores sf.accesses, p.2 = -v))
      ?_ ?_ ?_ _ (init x) r sf
      ⟨inv_init [v] x xsz, rfl, rfl, rfl, rfl, by simp [init, stores]⟩ hl
    · intro s s1 ⟨hs, hn, hi, hj, hb, hv1⟩ hk hb1
      rcases body_cases hx [v] hxsz s with ⟨_, h1⟩ | ⟨e, _, _, _, h1⟩ |
        ⟨e, w, _, _, _, _, h1⟩ | ⟨e, w, hl1, he, _, _, _, h1⟩ |
        ⟨e, hl1, he, hlt, h1⟩ | ⟨e, _, _, _, h1⟩ |
        ⟨e, w, hl7, he7, hw7, hj7, _, h1⟩ <;> rw [h1] at hb1 <;> cases hb1
      · rw [hn] at hl1
        simp at hl1
        omega
      · refine ⟨inv_emit hs hk hl1 he hlt, rfl, hi, hj, ?_, ?_⟩
        · simpa [emit, bitReads_append, bitReads] using hb
        · rw [hn] at hl1
          simp at hl1
          subst hl1
          intro p hp
          simp only [emit, stores_append, stores, List.append_nil, List.mem_append,
            List.mem_singleton] at hp
          rcases hp with hp | hp
          · exact hv1 p hp
          · rw [hp]
    · intro s r1 s1 ⟨hs, hn, hi, hj, hb, hv1⟩ hk hb1
      rcases body_cases hx [v] hxsz s with ⟨hl1, h1⟩ | ⟨e, hl1, he, _, h1⟩ |
        ⟨e, w, hl1, he, _, _, h1⟩ | ⟨e, w, hl1, he, _, _, _, h1⟩ |
        ⟨e, hl1, he, hlt, h1⟩ | ⟨e, hl1, he, hlt, h1⟩ |
        ⟨e, w, hl1, he, _, _, _, h1⟩ <;> rw [h1] at hb1 <;> cases hb1 <;>
        rw [hn] at hl1 <;> simp at hl1
      · omega
      · omega
      · have h1 := hs.k_le
        have h2 := inv_x_length hs (by omega)
        omega
      · omega
    · intro s hs hk
      exact ⟨rfl, hk, hs⟩
  obtain ⟨hok, hk, hinv, _, hi, hj, hb, hv1⟩ := key
  subst hok
  refine ⟨sf, hr, ?_, hb, hj, hi⟩
  rw [hinv.buffer, hk, List.drop_of_length_le (by omega), List.append_nil]
  rw [List.eq_replicate_iff]
  refine ⟨by rw [List.length_map, inv_stores_length hinv, hk], ?_⟩
  intro b hb1
  rw [List.mem_map] at hb1
  obtain ⟨p, hp, rfl⟩ := hb1
  exact hv1 p hp

theorem unravel_degenerate_witness :
    (-3 : Int) ≤ 0 ∧ ([0, 0, 0] : List Int).length = 3 ∧
      ∃ sf, unravel [0x8000] [-3] [0, 0, 0] 3 1 = some (.ok, sf) ∧
        sf.x = List.replicate 3 (-(-3)) ∧ bitReads sf.accesses = [] ∧
        sf.j = 0 ∧ sf.i = 15 :=
  ⟨by decide, by decide, unravel_degenerate (-3) (by decide) [0x8000] [0, 0, 0] 3 1 (by decide)⟩

/-- C6: in every run of `unravel`, whatever its end, the `t`-th bit read
(`t = 0, 1, ..`) is bit `15 - t % 16` of word `t / 16`, and after the `T` bits
of the run the cursor stands at word `T / 16`, bit `15 - T % 16`. One step
down the tree reads the bit under the cursor and moves the cursor from bit
position `t` to bit position `t + 1`: from bit 0 of a word it goes to bit 15
of the next word. -/
theorem unravel_cursor (hx : List Nat) (link : List Int) (x : List Int) (xsz : Nat)
    (hxsz : Int) (r : Status) (sf : State) (h : unravel hx link x xsz hxsz = some (r, sf)) :
    (∀ t, t < (bitReads sf.accesses).length →
        (bitReads sf.accesses)[t]? = some (t / 16, 15 - t % 16)) ∧
      sf.j = (bitReads sf.accesses).length / 16 ∧
      sf.i = 15 - (bitReads sf.accesses).length % 16 ∧
      (∀ (s : State) (e : Int) (w : Nat) (t : Nat), s.j = t / 16 → s.i = 15 - t % 16 →
        bitReads (descend s e w).accesses = bitReads s.accesses ++ [(t / 16, 15 - t % 16)] ∧
        (descend s e w).j = (t + 1) / 16 ∧ (descend s e w).i = 15 - (t + 1) % 16) := by
  have hinv := inv_unravel h
  have hc := hinv.cursor
  have hi := hinv.i_le
  unfold bitPos at hc
  refine ⟨?_, by omega, by omega, ?_⟩
  · intro t ht
    rw [hinv.reads]
    simp [List.getElem?_map, List.getElem?_range, ht]
  · intro s e w t hj hi
    rw [descend_accesses, bitReads_append, descend_i, descend_j, hj, hi]
    refine ⟨by simp [bitReads], ?_, ?_⟩
    · split <;> omega
    · split <;> omega

theorem unravel_cursor_witness :
    unravel [0x8000] [2, -5, -7] [0, 0] 2 1 = some (.ok, scenarioFinal) ∧
      ((∀ t, t < (bitReads scenarioFinal.accesses).length →
          (bitReads scenarioFinal.accesses)[t]? = some (t / 16, 15 - t % 16)) ∧
        scenarioFinal.j = (bitReads scenarioFinal.accesses).length / 16 ∧
        scenarioFinal.i = 15 - (bitReads scenarioFinal.accesses).length % 16 ∧
        (∀ (s : State) (e : Int) (w : Nat) (t : Nat), s.j = t / 16 → s.i = 15 - t % 16 →
          bitReads (descend s e w).accesses =
            bitReads s.accesses ++ [(t / 16, 15 - t % 16)] ∧
          (descend s e w).j = (t + 1) / 16 ∧ (descend s e w).i = 15 - (t + 1) % 16)) :=
  ⟨by decide, unravel_cursor [0x8000] [2, -5, -7] [0, 0] 2 1 .ok scenarioFinal (by decide)⟩

/-- C7: for every table (cyclic ones included), stream, buffer, `xsz` and word
budget `b ≥ 0`, the loop of `unravel` stops within `xsz + 16 * (b + 1)`
executions of its body, by the loop test, by the error or by an access or a
conversion out of range; and every execution of the body after which the loop goes on has
either stored one value (reading no bit) or read one bit (storing no value). -/
theorem loop_bounded (hx : List Nat) (link : List Int) (x : List Int) (xsz : Nat) (b : Nat) :
    (loop hx link xsz (b : Int) (xsz + 16 * (b + 1)) (init x)).isSome = true ∧
      ∀ (s s1 : State), body hx link (b : Int) s = .next s1 →
        (s1.k = s.k + 1 ∧ bitReads s1.accesses = bitReads s.accesses) ∨
        (s1.k = s.k ∧ (bitReads s1.accesses).length = (bitReads s.accesses).length + 1) := by
  constructor
  · apply loop_init_isSome
    unfold iterationBound
    omega
  · intro s s1 hb
    rcases body_cases hx link (b : Int) s with ⟨_, h1⟩ | ⟨e, _, _, _, h1⟩ |
      ⟨e, w, _, _, _, _, h1⟩ | ⟨e, w, _, _, _, _, _, h1⟩ |
      ⟨e, _, _, _, h1⟩ | ⟨e, _, _, _, h1⟩ |
      ⟨e, w, hl7, he7, hw7, hj7, _, h1⟩ <;> rw [h1] at hb <;> cases hb
    · right
      rw [descend_k, descend_accesses, bitReads_append]
      simp [bitReads]
    · left
      simp [emit, bitReads_append, bitReads]

/-- C8: a run of `unravel` ends in the error exactly when a bit has been read
and the word index, as advanced after that bit, is strictly greater than the
word budget; under a budget `hxsz ≥ 0` this is exactly when the run has read
`16 * (hxsz + 1)` bits, and then fewer than `xsz` values have been produced.
One execution of the body raises the error exactly at a node with a positive
entry, after reading the bit and advancing the cursor to a word index greater
than the budget; the step at a leaf and the loop test never raise it. -/
theorem outOfBits_iff (hx : List Nat) (link : List Int) (x : List Int) (xsz : Nat)
    (hxsz : Int) (r : Status) (sf : State) (h : unravel hx link x xsz hxsz = some (r, sf)) :
    (r = .outOfBits ↔ (bitReads sf.accesses ≠ [] ∧ hxsz < (sf.j : Int))) ∧
      (0 ≤ hxsz →
        (r = .outOfBits ↔ (bitReads sf.accesses).length = 16 * (hxsz + 1).toNat)) ∧
      (r = .outOfBits → sf.k < xsz) ∧
      (∀ (s s1 : State), body hx link hxsz s = .halt .outOfBits s1 ↔
        ∃ e w, link[s.n]? = some e ∧ 0 < e ∧ hx[s.j]? = some w ∧
          s1 = descend s e w ∧ hxsz < (s1.j : Int)) := by
  have hinv := inv_unravel h
  rw [unravel_eq_loop] at h
  obtain ⟨h1, h2, h3⟩ := loop_budget _ r sf h
  have hc := hinv.cursor
  have hi := hinv.i_le
  unfold bitPos at hc
  refine ⟨h1, ?_, h3, ?_⟩
  · intro h0
    constructor
    · intro hr
      obtain ⟨hj, hi15⟩ := h2 hr h0
      omega
    · intro hT
      by_contra hne
      have := loop_within _ r sf h0 h hne
      omega
  · intro s s1
    constructor
    · intro hb
      rcases body_cases hx link hxsz s with ⟨_, h1⟩ | ⟨e, _, _, _, h1⟩ |
        ⟨e, w, hl, he, hw, hj, h1⟩ | ⟨e, w, _, _, _, _, _, h1⟩ |
        ⟨e, _, _, _, h1⟩ | ⟨e, _, _, _, h1⟩ |
        ⟨e, w, hl7, he7, hw7, hj7, _, h1⟩ <;> rw [h1] at hb <;> cases hb
      exact ⟨e, w, hl, he, hw, rfl, hj⟩
    · rintro ⟨e, w, hl, he, hw, rfl, hj⟩
      unfold body
      simp [hl, he, hw, hj]

theorem outOfBits_iff_witness :
    unravel [0x8000] [2, -5, -7] [0] 1 (-1) = some (.outOfBits, budgetFinal) ∧
      ((Status.outOfBits = .outOfBits ↔
          (bitReads budgetFinal.accesses ≠ [] ∧ (-1 : Int) < (budgetFinal.j : Int))) ∧
        ((0 : Int) ≤ -1 →
          (Status.outOfBits = .outOfBits ↔
            (bitReads budgetFinal.accesses).length = 16 * ((-1 : Int) + 1).toNat)) ∧
        (Status.outOfBits = .outOfBits → budgetFinal.k < 1) ∧
        (∀ (s s1 : State), body [0x8000] [2, -5, -7] (-1) s = .halt .outOfBits s1 ↔
          ∃ e w, ([2, -5, -7] : List Int)[s.n]? = some e ∧ 0 < e ∧
            ([0x8000] : List Nat)[s.j]? = some w ∧
            s1 = descend s e w ∧ (-1 : Int) < (s1.j : Int))) :=
  ⟨by decide, outOfBits_iff [0x8000] [2, -5, -7] [0] 1 (-1) .outOfBits budgetFinal (by decide)⟩

/-- C9: whenever the loop of `unravel` exits through its test, `k` equals
`xsz`, so the test `k == xsz - 1` of the trailing statement is false and the
statement stores nothing; `unravel` equals `unravel` with the trailing
statement removed. -/
theorem trailing_unreachable (hx : List Nat) (link : List Int) (x : List Int) (xsz : Nat)
    (hxsz : Int) :
    (∀ (fuel : Nat) (s sf : State), loop hx link xsz hxsz fuel s = some (.ok, sf) →
        sf.k = xsz ∧ ¬ ((sf.k : Int) = (xsz : Int) - 1) ∧
        trailing link xsz sf = (.ok, sf)) ∧
      unravel hx link x xsz hxsz = unravelNoTrailing hx link x xsz hxsz := by
  refine ⟨?_, unravel_eq_loop hx link x xsz hxsz⟩
  intro fuel s sf h
  have hk := loop_ok_k fuel s sf h
  exact ⟨hk, by omega, trailing_of_k link xsz sf hk⟩

/-- C10: at a state with fewer than `xsz` values produced (the buffer holding
`xsz` cells) whose node holds an entry `e ≤ 0`, one execution of the loop
body stores `-e` at position `k`, adds 1 to `k`, sets the node to 0, leaves
the cursor `(j, i)` unchanged, reads no bit of the stream, and leaves every
other cell of the buffer and all earlier stores unchanged. -/
theorem leaf_step (hx : List Nat) (link : List Int) (xsz : Nat) (hxsz : Int) (s : State)
    (e : Int) (hl : link[s.n]? = some e) (he : e ≤ 0) (hk : s.k < xsz)
    (hbuf : xsz ≤ s.x.length) :
    ∃ s1, body hx link hxsz s = .next s1 ∧
      (∀ fuel, loop hx link xsz hxsz (fuel + 1) s = loop hx link xsz hxsz fuel s1) ∧
      s1.k = s.k + 1 ∧ s1.n = 0 ∧ s1.i = s.i ∧ s1.j = s.j ∧
      bitReads s1.accesses = bitReads s.accesses ∧
      stores s1.accesses = stores s.accesses ++ [(s.k, -e)] ∧
      s1.x[s.k]? = some (-e) ∧ (∀ p, p ≠ s.k → s1.x[p]? = s.x[p]?) ∧
      s1.x.length = s.x.length := by
  have hlt : s.k < s.x.length := by omega
  have hb : body hx link hxsz s = .next (emit s e) := by
    unfold body
    have : ¬ (e > 0) := by omega
    simp [hl, this, hlt]
  refine ⟨emit s e, hb, ?_, rfl, rfl, rfl, rfl, ?_, ?_, ?_, ?_, ?_⟩
  · intro fuel
    rw [loop_succ _ _ _ _ _ _ (by omega), hb]
  · simp [emit, bitReads_append, bitReads]
  · simp [emit, stores_append, stores]
  · simp [emit, hlt]
  · intro p hp
    simp only [emit]
    rw [List.getElem?_set_ne (Ne.symm hp)]
  · simp [emit]

theorem leaf_step_witness :
    ([2, -5, -7] : List Int)[(2 : Nat)]? = some (-7) ∧ (-7 : Int) ≤ 0 ∧ 0 < 2 ∧
      2 ≤ ([0, 0] : List Int).length ∧
      ∃ s1, body [0x8000] [2, -5, -7] 1
            { i := 14, j := 0, k := 0, n := 2, x := [0, 0], accesses := [] } = .next s1 ∧
        (∀ fuel, loop [0x8000] [2, -5, -7] 2 1 (fuel + 1)
            { i := 14, j := 0, k := 0, n := 2, x := [0, 0], accesses := [] } =
          loop [0x8000] [2, -5, -7] 2 1 fuel s1) ∧
        s1.k = 0 + 1 ∧ s1.n = 0 ∧ s1.i = 14 ∧ s1.j = 0 ∧
        bitReads s1.accesses = bitReads [] ∧
        stores s1.accesses = stores [] ++ [(0, -(-7))] ∧
        s1.x[(0 : Nat)]? = some (-(-7)) ∧ (∀ p, p ≠ 0 → s1.x[p]? = ([0, 0] : List Int)[p]?) ∧
        s1.x.length = ([0, 0] : List Int).length :=
  ⟨by decide, by decide, by decide, by decide,
    leaf_step [0x8000] [2, -5, -7] 2 1
      { i := 14, j := 0, k := 0, n := 2, x := [0, 0], accesses := [] } (-7)
      (by decide) (by decide) (by decide) (by decide)⟩

/-- C11 as stated fails: with table `[2147483648, -5, -7]` and stream
`[0x8000]`, the root holds the positive entry `m = 2147483648` and the bit
under the cursor is 1, yet the step does not set the node to `m`, which the
`int` register `n` cannot hold: the conversion of lines 16-17 has no value,
the body ends in a fault, and so does the run. -/
theorem internal_step_overflow :
    ([2147483648, -5, -7] : List Int)[(init [0]).n]? = some 2147483648 ∧
      (0 : Int) < 2147483648 ∧ ([0x8000] : List Nat)[(init [0]).j]? = some 0x8000 ∧
      (0x8000 : Nat).testBit (init [0]).i = true ∧ (init [0]).k < 1 ∧
      body [0x8000] [2147483648, -5, -7] 1 (init [0]) =
        .halt (.fault (.convert 2147483648))
          { i := 14, j := 0, k := 0, n := 0, x := [0],
            accesses := [.readLink 0, .readBit 0 15, .readLink 0] } ∧
      (¬ ∃ s1, (body [0x8000] [2147483648, -5, -7] 1 (init [0]) = .next s1 ∨
          body [0x8000] [2147483648, -5, -7] 1 (init [0]) = .halt .outOfBits s1) ∧
        (s1.n : Int) = 2147483648) ∧
      unravel [0x8000] [2147483648, -5, -7] [0] 1 1 =
        some (.fault (.convert 2147483648),
          { i := 14, j := 0, k := 0, n := 0, x := [0],
            accesses := [.readLink 0, .readBit 0 15, .readLink 0] }) := by
  have hb : body [0x8000] [2147483648, -5, -7] 1 (init [0]) =
      .halt (.fault (.convert 2147483648))
        { i := 14, j := 0, k := 0, n := 0, x := [0],
          accesses := [.readLink 0, .readBit 0 15, .readLink 0] } := by decide
  refine ⟨by decide, by decide, by decide, by decide, by decide, hb, ?_, by decide⟩
  rintro ⟨s1, h, _⟩
  rw [hb] at h
  rcases h with h | h <;> cases h

/-- C11, amended: at a state with fewer than `xsz` values produced whose node
holds a positive entry `m`, the word `w` under the cursor being in the stream
and the node selected by its bit `i` (`m` on 1, `m - 1` on 0) fitting the
`int` register (at most 2147483647), one execution of the loop body reads bit
`i` of word `j`, sets the node to `m` when that bit is 1 and to `m - 1` when it
is 0, moves the cursor by one bit (to bit `i - 1`, or to bit 15 of word `j + 1`
when `i` was 0), and leaves `k`, the buffer and the stores unchanged; the loop
then goes on from that state, unless the new word index exceeds the budget and
the error is raised. -/
theorem internal_step (hx : List Nat) (link : List Int) (xsz : Nat) (hxsz : Int) (s : State)
    (m : Int) (w : Nat) (hl : link[s.n]? = some m) (hm : 0 < m) (hw : hx[s.j]? = some w)
    (hfit : child m w s.i ≤ 2147483647) (hk : s.k < xsz) :
    ∃ s1, (body hx link hxsz s = .next s1 ∨ body hx link hxsz s = .halt .outOfBits s1) ∧
      (∀ fuel, loop hx link xsz hxsz (fuel + 1) s =
        if hxsz < (s1.j : Int) then some (.outOfBits, s1)
        else loop hx link xsz hxsz fuel s1) ∧
      bitReads s1.accesses = bitReads s.accesses ++ [(s.j, s.i)] ∧
      (s1.n : Int) = (if w.testBit s.i then m else m - 1) ∧
      s1.i = (if s.i = 0 then 15 else s.i - 1) ∧
      s1.j = (if s.i = 0 then s.j + 1 else s.j) ∧
      s1.k = s.k ∧ s1.x = s.x ∧ stores s1.accesses = stores s.accesses := by
  have h0 := child_nonneg hm w s.i
  have hc : toInt (child m w s.i) = some (child m w s.i) := toInt_of_fit (by omega) hfit
  have hb : body hx link hxsz s =
      if hxsz < ((descend s m w).j : Int) then .halt .outOfBits (descend s m w)
      else .next (descend s m w) := by
    simp [body, hl, hm, hw, hc]
  refine ⟨descend s m w, ?_, ?_, ?_, ?_, ?_, ?_, descend_k s m w, descend_x s m w, ?_⟩
  · rw [hb]
    by_cases hj : hxsz < ((descend s m w).j : Int)
    · right; rw [if_pos hj]
    · left; rw [if_neg hj]
  · intro fuel
    rw [loop_succ _ _ _ _ _ _ (by omega), hb]
    by_cases hj : hxsz < ((descend s m w).j : Int)
    · rw [if_pos hj, if_pos hj]
    · rw [if_neg hj, if_neg hj]
  · rw [descend_accesses, bitReads_append]
    simp [bitReads]
  · rw [descend_n_of_fit s m w hc, Int.toNat_of_nonneg h0]
    rfl
  · rw [descend_i]
    by_cases hi : s.i = 0 <;> simp [hi]
  · rw [descend_j]
    by_cases hi : s.i = 0 <;> simp [hi]
  · rw [descend_accesses, stores_append]
    simp [stores]

theorem internal_step_witness :
    ([2, -5, -7] : List Int)[(init [0, 0]).n]? = some 2 ∧ (0 : Int) < 2 ∧
      ([0x8000] : List Nat)[(init [0, 0]).j]? = some 0x8000 ∧
      child 2 0x8000 (init [0, 0]).i ≤ 2147483647 ∧ (init [0, 0]).k < 2 ∧
      ∃ s1, (body [0x8000] [2, -5, -7] 1 (init [0, 0]) = .next s1 ∨
          body [0x8000] [2, -5, -7] 1 (init [0, 0]) = .halt .outOfBits s1) ∧
        (∀ fuel, loop [0x8000] [2, -5, -7] 2 1 (fuel + 1) (init [0, 0]) =
          if (1 : Int) < (s1.j : Int) then some (.outOfBits, s1)
          else loop [0x8000] [2, -5, -7] 2 1 fuel s1) ∧
        bitReads s1.accesses =
          bitReads (init [0, 0]).accesses ++ [((init [0, 0]).j, (init [0, 0]).i)] ∧
        (s1.n : Int) = (if (0x8000 : Nat).testBit (init [0, 0]).i then 2 else 2 - 1) ∧
        s1.i = (if (init [0, 0]).i = 0 then 15 else (init [0, 0]).i - 1) ∧
        s1.j = (if (init [0, 0]).i = 0 then (init [0, 0]).j + 1 else (init [0, 0]).j) ∧
        s1.k = (init [0, 0]).k ∧ s1.x = (init [0, 0]).x ∧
        stores s1.accesses = stores (init [0, 0]).accesses :=
  ⟨by decide, by decide, by decide, by decide, by decide,
    internal_step [0x8000] [2, -5, -7] 2 1 (init [0, 0]) 2 0x8000
      (by decide) (by decide) (by decide) (by decide) (by decide)⟩

/-- C12: for `n ≤ m`, when `unravel` returns for `xsz = m`, it also returns
for `xsz = n` (on a buffer of `n` cells, same stream, table and budget), and
the output for `n` is the first `n` values of the output for `m`, stored by
the same first `n` stores. -/
theorem xsz_prefix (hx : List Nat) (link : List Int) (x y : List Int) (n m : Nat)
    (hxsz : Int) (sm : State) (hnm : n ≤ m) (hy : y.length = n)
    (h : unravel hx link x m hxsz = some (.ok, sm)) :
    ∃ sn, unravel hx link y n hxsz = some (.ok, sn) ∧ sn.x = sm.x.take n ∧
      stores sn.accesses = (stores sm.accesses).take n := by
  have hinvm := inv_unravel h
  rw [unravel_eq_loop] at h
  obtain ⟨sn, l, hloop, hk, hacc⟩ := loop_shorter hnm _ (init x) (init y) sm rfl rfl rfl rfl rfl
    (Nat.zero_le _) (by simp [init, hy]) h
  have hun := unravel_of_loop hloop
  have hinvn := inv_unravel hun
  have hlen := inv_stores_length hinvn
  rw [hk] at hlen
  have hst : stores sm.accesses = stores sn.accesses ++ stores l := by
    rw [hacc, stores_append]
  refine ⟨sn, hun, ?_, ?_⟩
  · rw [hinvn.buffer, hinvm.buffer, hst, hk, List.drop_of_length_le (by omega),
      List.append_nil, List.map_append, List.append_assoc,
      List.take_left' (by rw [List.length_map, hlen])]
  · rw [hst, List.take_left' hlen]

theorem xsz_prefix_witness :
    1 ≤ 2 ∧ ([0] : List Int).length = 1 ∧
      unravel [0x8000] [2, -5, -7] [0, 0] 2 1 = some (.ok, scenarioFinal) ∧
      ∃ sn, unravel [0x8000] [2, -5, -7] [0] 1 1 = some (.ok, sn) ∧
        sn.x = scenarioFinal.x.take 1 ∧
        stores sn.accesses = (stores scenarioFinal.accesses).take 1 :=
  ⟨by decide, by decide, by decide,
    xsz_prefix [0x8000] [2, -5, -7] [0, 0] [0] 1 2 1 scenarioFinal (by decide) (by decide)
      (by decide)⟩

/-- C13: for word budgets `b ≤ c`, when `unravel` returns under the budget
`b`, it returns under the budget `c` on the same stream, table and buffer,
with the same final state, hence the same output; more generally every run
that does not raise the error under `b` ends the same way under `c`, so the
budget decides only whether the error is raised. -/
theorem budget_mono (hx : List Nat) (link : List Int) (x : List Int) (xsz : Nat)
    (b c : Int) (hbc : b ≤ c) :
    (∀ sf, unravel hx link x xsz b = some (.ok, sf) →
        unravel hx link x xsz c = some (.ok, sf)) ∧
      (∀ r sf, unravel hx link x xsz b = some (r, sf) → r ≠ .outOfBits →
        unravel hx link x xsz c = some (r, sf)) := by
  have key : ∀ r sf, unravel hx link x xsz b = some (r, sf) → r ≠ .outOfBits →
      unravel hx link x xsz c = some (r, sf) := by
    intro r sf h hr
    rw [unravel_eq_loop] at h
    exact unravel_of_loop (loop_budget_mono hbc _ _ r sf h hr)
  exact ⟨fun sf h => key .ok sf h (by intro h1; cases h1), key⟩

theorem budget_mono_witness :
    (1 : Int) ≤ 2 ∧
      ((∀ sf, unravel [0x8000] [2, -5, -7] [0, 0] 2 1 = some (.ok, sf) →
          unravel [0x8000] [2, -5, -7] [0, 0] 2 2 = some (.ok, sf)) ∧
        (∀ r sf, unravel [0x8000] [2, -5, -7] [0, 0] 2 1 = some (r, sf) → r ≠ .outOfBits →
          unravel [0x8000] [2, -5, -7] [0, 0] 2 2 = some (r, sf))) :=
  ⟨by decide, budget_mono [0x8000] [2, -5, -7] [0, 0] 2 1 2 (by decide)⟩

/-- C14: in every run of `unravel`, whatever its end (return, error, access or
conversion out of range), every value stored in the output is `-e` for an entry
`e = link[n]` with `e ≤ 0`, hence is `≥ 0`; and each of the first `k` cells of
the buffer holds such a value. -/
theorem output_domain (hx : List Nat) (link : List Int) (x : List Int) (xsz : Nat)
    (hxsz : Int) (r : Status) (sf : State) (h : unravel hx link x xsz hxsz = some (r, sf)) :
    (∀ p ∈ stores sf.accesses,
        (∃ (n : Nat) (e : Int), link[n]? = some e ∧ e ≤ 0 ∧ p.2 = -e) ∧ 0 ≤ p.2) ∧
      (∀ q, q < sf.k →
        ∃ (n : Nat) (e : Int), link[n]? = some e ∧ e ≤ 0 ∧ sf.x[q]? = some (-e)) := by
  have hinv := inv_unravel h
  have hlen := inv_stores_length hinv
  constructor
  · intro p hp
    obtain ⟨n, e, hl, he, hv⟩ := hinv.values p hp
    exact ⟨⟨n, e, hl, he, hv⟩, by omega⟩
  · intro q hq
    have hq1 : q < (stores sf.accesses).length := by omega
    obtain ⟨n, e, hl, he, hv⟩ := hinv.values _ (List.getElem_mem hq1)
    refine ⟨n, e, hl, he, ?_⟩
    rw [hinv.buffer, List.getElem?_append_left (by rw [List.length_map]; exact hq1),
      List.getElem?_map, List.getElem?_eq_getElem hq1, Option.map_some', hv]

theorem output_domain_witness :
    unravel [0x8000] [2, -5, -7] [0, 0] 2 1 = some (.ok, scenarioFinal) ∧
      ((∀ p ∈ stores scenarioFinal.accesses,
          (∃ (n : Nat) (e : Int), ([2, -5, -7] : List Int)[n]? = some e ∧ e ≤ 0 ∧ p.2 = -e) ∧
            0 ≤ p.2) ∧
        (∀ q, q < scenarioFinal.k →
          ∃ (n : Nat) (e : Int), ([2, -5, -7] : List Int)[n]? = some e ∧ e ≤ 0 ∧
            scenarioFinal.x[q]? = some (-e))) :=
  ⟨by decide, output_domain [0x8000] [2, -5, -7] [0, 0] 2 1 .ok scenarioFinal (by decide)⟩

/-- C15: with `xsz = 0`, for every table, stream, buffer and word budget,
`unravel` returns at once in its initial state: nothing is stored (the buffer
is as the caller gave it, empty when it has no cell), no entry of the table
and no word of the stream is read, and the error is not raised. -/
theorem empty_request (hx : List Nat) (link : List Int) (x : List Int) (hxsz : Int) :
    unravel hx link x 0 hxsz = some (.ok, init x) ∧ (init x).x = x ∧
      (init x).accesses = [] ∧ unravel hx link [] 0 hxsz = some (.ok, init []) ∧
      (init []).x = [] := by
  refine ⟨?_, rfl, rfl, ?_, rfl⟩
  · rw [unravel_eq_loop]
    exact loop_done _ _ _ _ _ _ rfl
  · rw [unravel_eq_loop]
    exact loop_done _ _ _ _ _ _ rfl

end Unravel
